import Mathlib

/-!
# xDNS: block matcher, response cache and upstream forwarder

A shallow embedding of `blocker.go`, `cache.go` and `forwader.go`.

* Go `string` and `[]byte` values are byte sequences, `List UInt8`.
* `strings.ToLower` and `strings.ToUpper` follow Go on every byte string: the
  byte-wise path on ASCII text, else `strings.Map` over the UTF-8 runes, an
  invalid byte becoming U+FFFD. The case tables of package `unicode` are not
  part of the repository; they enter as a parameter `table`, the mapping of
  the runes above U+007F.
* Files, sockets and the clock are inputs: `NewBlocker` receives the lines the
  `bufio.Scanner` yields, `Forward` receives the upstream round trip as a
  function, and the cache operations receive the current instant.
* Byte slices handed to and returned by the cache live in an explicit heap of
  backing arrays, so that aliasing between a caller's buffer and the stored
  entry is expressible.
-/

namespace XDNS

/-! ## Strings -/

/-- Go `string` (and the contents of a `[]byte`): a sequence of bytes. -/
abbrev GoString := List UInt8

/-- An ASCII string literal as its bytes. -/
def str (s : String) : GoString := s.toList.map (fun c => UInt8.ofNat c.toNat)

/-- Go `strings.HasPrefix`. -/
def HasPrefix (s p : GoString) : Bool := p.isPrefixOf s

/-- Go `strings.HasSuffix`. -/
def HasSuffix (s p : GoString) : Bool := p.isSuffixOf s

/-- Go `strings.TrimPrefix`: `s` without the leading `p`, when it has it. -/
def TrimPrefix (s p : GoString) : GoString :=
  if HasPrefix s p then s.drop p.length else s

/-- Go `strings.TrimSuffix`: `s` without the trailing `p`, when it has it. -/
def TrimSuffix (s p : GoString) : GoString :=
  if HasSuffix s p then s.take (s.length - p.length) else s

/-- Go `strings.Contains`: `sub` occurs in `s` at some offset. -/
def Contains : GoString → GoString → Bool
  | [], sub => sub.isEmpty
  | c :: s, sub => sub.isPrefixOf (c :: s) || Contains s sub

/-- Go `strings.SplitN(s, sep, 2)` for a non-empty `sep` that occurs in `s`:
the text before the first occurrence (`parts[0]`) and the text after it
(`parts[1]`). -/
def SplitN2 : GoString → GoString → GoString × GoString
  | [], _ => ([], [])
  | c :: s, sep =>
    if sep.isPrefixOf (c :: s) then ([], (c :: s).drop sep.length)
    else ((c :: (SplitN2 s sep).1), (SplitN2 s sep).2)

/-- The lower-case mapping of one byte on the ASCII path of `strings.ToLower`,
`c += 'a' - 'A'` for `'A' ≤ c ≤ 'Z'`. -/
def toLowerByte (c : UInt8) : UInt8 :=
  if 65 ≤ c.toNat ∧ c.toNat ≤ 90 then UInt8.ofNat (c.toNat + 32) else c

/-- The upper-case mapping of one byte on the ASCII path of `strings.ToUpper`,
`c -= 'a' - 'A'` for `'a' ≤ c ≤ 'z'`. -/
def toUpperByte (c : UInt8) : UInt8 :=
  if 97 ≤ c.toNat ∧ c.toNat ≤ 122 then UInt8.ofNat (c.toNat - 32) else c

/-- Go `utf8.RuneError`, the replacement rune U+FFFD. -/
def RuneError : Nat := 0xFFFD

/-- A rune that `utf8.AppendRune` writes as it is: at most `utf8.MaxRune` and
outside the surrogate range. -/
abbrev ValidRune (r : Nat) : Prop := r ≤ 0x10FFFF ∧ ¬ (0xD800 ≤ r ∧ r ≤ 0xDFFF)

/-- The body of Go `utf8.DecodeRuneInString` on a string of `n ≥ 1` bytes that
starts with the bytes `s0`, `s1`, `s2`, `s3` (0 where the string has ended):
the rune and its width. The cases on `s0` are the table `first`, the bounds on
`s1` its `acceptRanges` entry, and the masks and shifts are written as `%` and
`*`. Each failed check of the source returns `(RuneError, 1)`; the checks of
one size are gathered in one condition. -/
def decodeCore (n s0 s1 s2 s3 : Nat) : Nat × Nat :=
  if s0 < 0x80 then (s0, 1)
  else if s0 < 0xC2 ∨ 0xF4 < s0 then (RuneError, 1)
  else if s0 < 0xE0 then
    if n < 2 ∨ s1 < 0x80 ∨ 0xBF < s1 then (RuneError, 1)
    else (s0 % 32 * 64 + s1 % 64, 2)
  else if s0 < 0xF0 then
    if n < 3 ∨ s1 < 0x80 ∨ 0xBF < s1 ∨ (s0 = 0xE0 ∧ s1 < 0xA0) ∨ (s0 = 0xED ∧ 0x9F < s1)
        ∨ s2 < 0x80 ∨ 0xBF < s2 then (RuneError, 1)
    else (s0 % 16 * 4096 + s1 % 64 * 64 + s2 % 64, 3)
  else
    if n < 4 ∨ s1 < 0x80 ∨ 0xBF < s1 ∨ (s0 = 0xF0 ∧ s1 < 0x90) ∨ (s0 = 0xF4 ∧ 0x8F < s1)
        ∨ s2 < 0x80 ∨ 0xBF < s2 ∨ s3 < 0x80 ∨ 0xBF < s3 then (RuneError, 1)
    else (s0 % 8 * 262144 + s1 % 64 * 4096 + s2 % 64 * 64 + s3 % 64, 4)

/-- Go `utf8.DecodeRuneInString`: the first rune of `s` and its width in bytes,
`(RuneError, 0)` for the empty string and `(RuneError, 1)` for a byte that
starts no valid encoding. -/
def DecodeRuneInString (s : GoString) : Nat × Nat :=
  if s.length < 1 then (RuneError, 0)
  else decodeCore s.length (s.getD 0 0).toNat (s.getD 1 0).toNat (s.getD 2 0).toNat
    (s.getD 3 0).toNat

/-- Go `utf8.AppendRune` on an empty buffer (what `Builder.WriteRune` appends):
the UTF-8 encoding of `r`, that of `RuneError` for a rune out of range or a
surrogate. -/
def EncodeRune (r : Nat) : GoString :=
  if r < 0x80 then [UInt8.ofNat r]
  else if r < 0x800 then [UInt8.ofNat (0xC0 + r / 64), UInt8.ofNat (0x80 + r % 64)]
  else if 0x10FFFF < r ∨ (0xD800 ≤ r ∧ r ≤ 0xDFFF) then [0xEF, 0xBF, 0xBD]
  else if r < 0x10000 then
    [UInt8.ofNat (0xE0 + r / 4096), UInt8.ofNat (0x80 + r / 64 % 64), UInt8.ofNat (0x80 + r % 64)]
  else
    [UInt8.ofNat (0xF0 + r / 262144), UInt8.ofNat (0x80 + r / 4096 % 64),
      UInt8.ofNat (0x80 + r / 64 % 64), UInt8.ofNat (0x80 + r % 64)]

/-- The runes `for _, c := range s` yields, an invalid byte giving `RuneError`.
Every round consumes at least one byte, so `len(s)` rounds of fuel suffice. -/
def runesAux : Nat → GoString → List Nat
  | 0, _ => []
  | fuel + 1, s =>
    if s = [] then []
    else (DecodeRuneInString s).1 :: runesAux fuel (s.drop (DecodeRuneInString s).2)

/-- The runes of `s` in the order `range s` yields them. -/
def runes (s : GoString) : List Nat := runesAux s.length s

/-- Go `strings.Map` for a mapping that returns no negative rune: every rune of
`range s` is mapped and written with `WriteRune`. (Go copies the bytes up to
the first rune that changes; they are the encodings of the runes they decode
to.) -/
def Map (mapping : Nat → Nat) (s : GoString) : GoString :=
  (runes s).flatMap (fun c => EncodeRune (mapping c))

/-- Go `unicode.ToLower`: the ASCII letters are folded in the code, every other
rune goes through the case tables, `table`. -/
def unicodeToLower (table : Nat → Nat) (r : Nat) : Nat :=
  if r ≤ 0x7F then (if 0x41 ≤ r ∧ r ≤ 0x5A then r + 32 else r) else table r

/-- Go `unicode.ToUpper`: the ASCII letters are folded in the code, every other
rune goes through the case tables, `table`. -/
def unicodeToUpper (table : Nat → Nat) (r : Nat) : Nat :=
  if r ≤ 0x7F then (if 0x61 ≤ r ∧ r ≤ 0x7A then r - 32 else r) else table r

/-- Go `strings.ToLower`: byte-wise on a string of ASCII bytes, else
`Map(unicode.ToLower, s)`. -/
def ToLower (table : Nat → Nat) (s : GoString) : GoString :=
  if s.all (fun c => c.toNat < 0x80) then s.map toLowerByte
  else Map (unicodeToLower table) s

/-- Go `strings.ToUpper`: byte-wise on a string of ASCII bytes, else
`Map(unicode.ToUpper, s)`. -/
def ToUpper (table : Nat → Nat) (s : GoString) : GoString :=
  if s.all (fun c => c.toNat < 0x80) then s.map toUpperByte
  else Map (unicodeToUpper table) s

/-- Go `utf8.ValidString`: the bytes of `s` are the encodings of its runes,
none of them an invalid byte. -/
def ValidString (s : GoString) : Prop := (runes s).flatMap EncodeRune = s

/-- The UTF-8 encodings of the runes for which Go `unicode.IsSpace` holds:
tab, LF, VT, FF, CR, space, U+0085, U+00A0, U+1680, U+2000 to U+200A, U+2028,
U+2029, U+202F, U+205F and U+3000. -/
def spaceRunes : List GoString :=
  [[0x09], [0x0A], [0x0B], [0x0C], [0x0D], [0x20],
   [0xC2, 0x85], [0xC2, 0xA0], [0xE1, 0x9A, 0x80],
   [0xE2, 0x80, 0x80], [0xE2, 0x80, 0x81], [0xE2, 0x80, 0x82], [0xE2, 0x80, 0x83],
   [0xE2, 0x80, 0x84], [0xE2, 0x80, 0x85], [0xE2, 0x80, 0x86], [0xE2, 0x80, 0x87],
   [0xE2, 0x80, 0x88], [0xE2, 0x80, 0x89], [0xE2, 0x80, 0x8A],
   [0xE2, 0x80, 0xA8], [0xE2, 0x80, 0xA9], [0xE2, 0x80, 0xAF],
   [0xE2, 0x81, 0x9F], [0xE3, 0x80, 0x80]]

/-- Go `strings.TrimLeftFunc(s, unicode.IsSpace)`: drop leading space runes.
Every round removes at least one byte, so `s.length` rounds of `fuel` suffice. -/
def trimLeftSpace : Nat → GoString → GoString
  | 0, s => s
  | fuel + 1, s =>
    match spaceRunes.find? (fun w => w.isPrefixOf s) with
    | some w => trimLeftSpace fuel (s.drop w.length)
    | none => s

/-- Go `strings.TrimRightFunc(s, unicode.IsSpace)`: drop trailing space runes. -/
def trimRightSpace : Nat → GoString → GoString
  | 0, s => s
  | fuel + 1, s =>
    match spaceRunes.find? (fun w => w.isSuffixOf s) with
    | some w => trimRightSpace fuel (s.take (s.length - w.length))
    | none => s

/-- Go `strings.TrimSpace`: leading and trailing white space removed. -/
def TrimSpace (s : GoString) : GoString :=
  trimRightSpace s.length (trimLeftSpace s.length s)

/-! ## blocker.go -/

/-- Go `wildcardPattern`: the literals before and after the `*` of a middle rule. -/
structure wildcardPattern where
  /-- The source field `prefix`. -/
  prefixLit : GoString
  /-- The source field `suffix`. -/
  suffix : GoString
  deriving DecidableEq, Repr

/-- Go `Blocker`. `exactDomains` is a `map[string]bool` whose stored values are
all `true`; it is kept as the list of its keys. The mutex and the logger carry
no data. -/
structure Blocker where
  exactDomains : List GoString
  wildcardSuffix : List GoString
  wildcardPrefix : List GoString
  wildcardMiddle : List wildcardPattern
  deriving DecidableEq, Repr

/-- The `Blocker` literal `NewBlocker` starts from: four empty tables. -/
def Blocker.empty : Blocker := ⟨[], [], [], []⟩

/-- Go `Blocker.addWildcard`. -/
def Blocker.addWildcard (b : Blocker) (pattern : GoString) : Blocker :=
  if HasPrefix pattern (str "*.") then
    { b with wildcardSuffix := b.wildcardSuffix ++ [TrimPrefix pattern (str "*.")] }
  else if HasSuffix pattern (str ".*") then
    { b with wildcardPrefix := b.wildcardPrefix ++ [TrimSuffix pattern (str ".*")] }
  else if Contains pattern (str "*") then
    { b with wildcardMiddle := b.wildcardMiddle ++
        [⟨(SplitN2 pattern (str "*")).1, (SplitN2 pattern (str "*")).2⟩] }
  else b

/-- One round of the scanner loop of `NewBlocker` on the scanned text `text`. -/
def Blocker.loadLine (table : Nat → Nat) (b : Blocker) (text : GoString) : Blocker :=
  let line := TrimSpace text
  if line = [] ∨ HasPrefix line (str "#") = true then b
  else
    let line := ToLower table line
    if Contains line (str "*") then b.addWildcard line
    else { b with exactDomains := b.exactDomains.insert line }

/-- Go `NewBlocker` once the list file is open: the scanner loop over the lines
of the file, starting from the empty tables. -/
def NewBlocker (table : Nat → Nat) (lines : List GoString) : Blocker :=
  lines.foldl (Blocker.loadLine table) Blocker.empty

/-- Go `Blocker.IsBlocked`. Each `for` loop returns `true` at the first rule
that matches. -/
def Blocker.IsBlocked (table : Nat → Nat) (b : Blocker) (domain : GoString) : Bool :=
  let domain := ToLower table domain
  let domain := TrimSuffix domain (str ".")
  if b.exactDomains.contains domain then true
  else if b.wildcardSuffix.any
      (fun suffix => HasSuffix domain (str "." ++ suffix) || domain == suffix) then true
  else if b.wildcardPrefix.any
      (fun pre => HasPrefix domain (pre ++ str ".") || domain == pre) then true
  else if b.wildcardMiddle.any
      (fun pattern => HasPrefix domain pattern.prefixLit && HasSuffix domain pattern.suffix)
    then true
  else false

/-! ## Byte slices -/

/-- Go `make([]byte, n)`: `n` zero bytes. -/
def makeBytes (n : Nat) : List UInt8 := List.replicate n 0

/-- Go `copy(dst, src)` on the contents: the first `min (len dst) (len src)`
bytes of `dst` are overwritten by those of `src`. -/
def copyBytes (dst src : List UInt8) : List UInt8 :=
  src.take (min dst.length src.length) ++ dst.drop (min dst.length src.length)

/-- The backing arrays that byte slices refer to, in allocation order. -/
structure Heap where
  arrays : List (List UInt8)
  deriving DecidableEq, Repr

/-! A `[]byte` value held by the cache or by its caller is a reference to a
backing array, spanning the whole array: a `Nat`, the allocation index. -/

/-- The bytes a slice refers to. -/
def Heap.read (h : Heap) (s : Nat) : List UInt8 := h.arrays.getD s []

/-- Overwrite the bytes a slice refers to (element assignment through the slice). -/
def Heap.write (h : Heap) (s : Nat) (bytes : List UInt8) : Heap :=
  ⟨h.arrays.set s bytes⟩

/-- Go `make([]byte, n)` as an allocation: a fresh backing array. -/
def Heap.make (h : Heap) (n : Nat) : Heap × Nat :=
  (⟨h.arrays ++ [makeBytes n]⟩, h.arrays.length)

/-- Allocate a backing array with the given contents (a buffer filled by a read). -/
def Heap.alloc (h : Heap) (bytes : List UInt8) : Heap × Nat :=
  (⟨h.arrays ++ [bytes]⟩, h.arrays.length)

/-- The bytes of a slice value that may be Go `nil`. -/
def Heap.readSlice (h : Heap) : Option Nat → List UInt8
  | none => []
  | some s => h.read s

/-- Go `copy(dst, src)` between two slices. -/
def Heap.copy (h : Heap) (dst src : Nat) : Heap :=
  h.write dst (copyBytes (h.read dst) (h.read src))

/-! ## cache.go -/

/-! Readings of the monotonic clock (Go `time.Time`) and Go `time.Duration`
values are counted in nanoseconds, as `Int`. -/

/-- Go `cacheEntry`. -/
structure cacheEntry where
  response : Nat
  timestamp : Int
  deriving DecidableEq, Repr

/-- Go `Cache`: `entries` is the `map[string]*cacheEntry` as an association
list with one pair per key. -/
structure Cache where
  entries : List (GoString × cacheEntry)
  ttl : Int
  deriving DecidableEq, Repr

/-- Go `NewCache`, without the sweeper it starts. -/
def NewCache (ttl : Int) : Cache := ⟨[], ttl⟩

/-- What `Cache.Get` returns and leaves behind. -/
structure GetResult where
  /-- The returned slice, `none` for Go `nil`. -/
  response : Option Nat
  /-- The returned `bool`. -/
  found : Bool
  /-- The cache after the call. -/
  cache : Cache
  /-- The heap after the call. -/
  heap : Heap
  deriving DecidableEq, Repr

/-- Go `Cache.Get` at the instant `now`; `time.Since(entry.timestamp)` is
`now - entry.timestamp`. -/
def Cache.Get (c : Cache) (h : Heap) (now : Int) (key : GoString) : GetResult :=
  match c.entries.lookup key with
  | none => ⟨none, false, c, h⟩
  | some entry =>
    if now - entry.timestamp > c.ttl then ⟨none, false, c, h⟩
    else
      let m := h.make (h.read entry.response).length
      ⟨some m.2, true, c, m.1.copy m.2 entry.response⟩

/-- Go `Cache.Set` at the instant `now`: the assignment `c.entries[key] = ...`
replaces the pair of `key`. -/
def Cache.Set (c : Cache) (h : Heap) (now : Int) (key : GoString) (response : Nat) :
    Cache × Heap :=
  let m := h.make (h.read response).length
  ({ c with entries := (key, ⟨m.2, now⟩) :: c.entries.filter (fun e => e.1 ≠ key) },
   m.1.copy m.2 response)

/-- One tick of Go `Cache.cleanup` at the instant `now`: every entry older
than the time-to-live is deleted. -/
def Cache.cleanup (c : Cache) (now : Int) : Cache :=
  { c with entries := c.entries.filter (fun e => ¬ (now - e.2.timestamp > c.ttl)) }

/-- A step on the cache by some goroutine. -/
inductive CacheOp where
  | get (now : Int) (key : GoString)
  | set (now : Int) (key : GoString) (response : Nat)
  | cleanup (now : Int)
  deriving DecidableEq, Repr

/-- The cache and heap after a step. -/
def CacheOp.run (st : Cache × Heap) : CacheOp → Cache × Heap
  | .get now key => ((st.1.Get st.2 now key).cache, (st.1.Get st.2 now key).heap)
  | .set now key response => st.1.Set st.2 now key response
  | .cleanup now => (st.1.cleanup now, st.2)

/-- The step stores under `key`. -/
def CacheOp.setsKey (key : GoString) : CacheOp → Bool
  | .set _ k _ => k == key
  | _ => false

/-! ## forwader.go -/

/-- Go `Forwarder.createBlockedResponse`. -/
def createBlockedResponse (query : List UInt8) : List UInt8 :=
  if query.length < 12 then query
  else
    let response := copyBytes (makeBytes query.length) query
    let response := response.set 2 0x81
    let response := response.set 3 0x83
    response

/-- Go `hex.EncodeToString`: two lower-case hexadecimal digits per byte. -/
def EncodeToString (bytes : List UInt8) : GoString :=
  bytes.flatMap (fun b =>
    [(str "0123456789abcdef").getD (b.toNat / 16) 0, (str "0123456789abcdef").getD (b.toNat % 16) 0])

/-- Go `Forwarder.getCacheKey`; `Sum256` is `sha256.Sum256`. -/
def getCacheKey (Sum256 : List UInt8 → List UInt8) (query : List UInt8) : GoString :=
  if query.length < 12 then str ""
  else
    let queryWithoutID := copyBytes (makeBytes query.length) query
    let queryWithoutID := queryWithoutID.set 0 0
    let queryWithoutID := queryWithoutID.set 1 0
    EncodeToString (Sum256 queryWithoutID)

/-- Go `Forwarder.adjustTransactionID`. -/
def adjustTransactionID (cached query : List UInt8) : List UInt8 :=
  if cached.length < 2 ∨ query.length < 2 then cached
  else
    let response := copyBytes (makeBytes cached.length) cached
    let response := response.set 0 (query.getD 0 0)
    let response := response.set 1 (query.getD 1 0)
    response

/-- The `for pos < len(query)` loop of `extractDomain` from `pos` with the
name read so far; `none` when the loop returns `"invalid"`, else the name at
the loop exit. Every round advances `pos`, so `len(query)` rounds of `fuel`
are never used up. -/
def extractLoop (query : List UInt8) : Nat → Nat → GoString → Option GoString
  | 0, _, domain => some domain
  | fuel + 1, pos, domain =>
    if pos < query.length then
      let length := (query.getD pos 0).toNat
      if length = 0 then some domain
      else
        let pos := pos + 1
        if pos + length > query.length then none
        else
          let domain := if domain ≠ [] then domain ++ str "." else domain
          let domain := domain ++ (query.drop pos).take length
          extractLoop query fuel (pos + length) domain
    else some domain

/-- Go `Forwarder.extractDomain`. -/
def extractDomain (query : List UInt8) : GoString :=
  if query.length < 13 then str "unknown"
  else
    match extractLoop query query.length 12 [] with
    | none => str "invalid"
    | some domain => if domain = [] then str "unknown" else domain

/-- The calls `Forward` makes on the logger. -/
inductive LogEvent where
  | Query (clientIP domain : GoString)
  | Blocked (clientIP domain : GoString)
  | CacheHit (domain : GoString)
  deriving DecidableEq, Repr

/-- What `Forward` returns and leaves behind. -/
structure ForwardResult where
  /-- The returned bytes (`none` for Go `nil`). -/
  response : Option (List UInt8)
  /-- The returned error. -/
  err : Option GoString
  /-- The cache after the call. -/
  cache : Cache
  /-- The heap after the call. -/
  heap : Heap
  /-- The logger calls, in order. -/
  log : List LogEvent
  /-- The queries handed to `conn.Write`, in order. -/
  sent : List (List UInt8)
  deriving DecidableEq, Repr

/-- Go `Forwarder` as `Forward` uses it, together with what one call takes from
outside the program. `exchange` stands for the pooled connection:
`conn.Write(query)` followed by `conn.Read`, giving the error of either or the
datagram received. `caseTable` is the table behind `unicode.ToLower`, `Sum256`
is `sha256.Sum256`. `tGet` and `tSet` are the clock
readings inside `cache.Get` and `cache.Set` during the call. The cache the
forwarder points to is passed to `Forward` as state. -/
structure Forwarder where
  blocker : Blocker
  caseTable : Nat → Nat
  Sum256 : List UInt8 → List UInt8
  exchange : List UInt8 → Except GoString (List UInt8)
  tGet : Int
  tSet : Int

/-- Go `Forwarder.Forward` on the cache `c` and heap `h`. The buffer of 4096
bytes receives the datagram and is cut to the `n` bytes read. -/
def Forwarder.Forward (f : Forwarder) (c : Cache) (h : Heap) (query : List UInt8)
    (clientIP : GoString) : ForwardResult :=
  let domain := extractDomain query
  let log := [LogEvent.Query clientIP domain]
  if f.blocker.IsBlocked f.caseTable domain then
    ⟨some (createBlockedResponse query), none, c, h, log ++ [LogEvent.Blocked clientIP domain], []⟩
  else
    let cacheKey := getCacheKey f.Sum256 query
    let g := c.Get h f.tGet cacheKey
    if g.found then
      ⟨some (adjustTransactionID (g.heap.readSlice g.response) query), none, g.cache, g.heap,
        log ++ [LogEvent.CacheHit domain], []⟩
    else
      match f.exchange query with
      | .error e => ⟨none, some e, g.cache, g.heap, log, [query]⟩
      | .ok datagram =>
        let response := copyBytes (makeBytes 4096) datagram
        let n := min 4096 datagram.length
        let a := g.heap.alloc (response.take n)
        let s := g.cache.Set a.1 f.tSet cacheKey a.2
        ⟨some (s.2.read a.2), none, s.1, s.2, log, [query]⟩

/-! ## Definitions used to state the properties -/

/-- The normalised domain in the words of the specification: lower-cased (by
`strings.ToLower`), then one trailing dot stripped. -/
def normalized (table : Nat → Nat) (d : GoString) : GoString :=
  if (ToLower table d).getLast? = some 46 then (ToLower table d).dropLast
  else ToLower table d

/-- The wire form of a name without its terminator: every label preceded by
its length in one byte. -/
def encodeLabels (labels : List GoString) : List UInt8 :=
  labels.flatMap (fun l => UInt8.ofNat l.length :: l)

/-- Go `strings.Join`. -/
def Join : List GoString → GoString → GoString
  | [], _ => []
  | [a], _ => a
  | a :: b :: r, sep => a ++ sep ++ Join (b :: r) sep

/-- The name after one more label has been read by the loop of `extractDomain`. -/
def appendLabel (domain l : GoString) : GoString :=
  (if domain ≠ [] then domain ++ str "." else domain) ++ l

/-- The scanner loop stores `d` as an exact rule: some line of the list, once
trimmed, is neither blank nor a comment, and lower-cased it is `d` and has no `*`. -/
def isExactRule (table : Nat → Nat) (lines : List GoString) (d : GoString) : Prop :=
  ∃ line ∈ lines, TrimSpace line ≠ [] ∧ HasPrefix (TrimSpace line) (str "#") = false
    ∧ Contains (ToLower table (TrimSpace line)) (str "*") = false
    ∧ d = ToLower table (TrimSpace line)

/-- The string `e` is a re-casing of the ASCII letters of `d`: byte for byte the
same, except that a letter `A` to `Z` or `a` to `z` may stand in its other case. -/
def isRecasing (e d : GoString) : Prop :=
  List.Forall₂ (fun a b => a = b ∨ a = toUpperByte b ∨ a = toLowerByte b) e d

/-- `Set(k, v)` for a caller's buffer `v` holding `bytes`, followed by `Get(k)`
at the same instant `t`. -/
def setThenGet (c : Cache) (h : Heap) (t : Int) (k : GoString) (bytes : List UInt8) :
    GetResult :=
  (c.Set (h.alloc bytes).1 t k (h.alloc bytes).2).1.Get
    (c.Set (h.alloc bytes).1 t k (h.alloc bytes).2).2 t k

/-- Every pair stored under `k` carries the insertion time `t0`. -/
def stampedAt (k : GoString) (t0 : Int) (c : Cache) : Prop :=
  ∀ e : cacheEntry, (k, e) ∈ c.entries → e.timestamp = t0

/-- A declared label length reads past the end of the buffer: behind the
12-byte header and a run of complete labels stands a length byte `L` that is
not zero and is followed by fewer than `L` bytes. -/
def labelOverrun (q : List UInt8) : Prop :=
  ∃ (h : List UInt8) (labels : List GoString) (L : UInt8) (tail : List UInt8),
    h.length = 12 ∧ (∀ l ∈ labels, 1 ≤ l.length ∧ l.length ≤ 255) ∧ L ≠ 0
      ∧ tail.length < L.toNat ∧ q = h ++ encodeLabels labels ++ [L] ++ tail

/-- A forwarder for the examples: the rules of `lines`, a case table that
leaves every rune above U+007F as it is, the identity in the place of the
digest, an upstream that answers with the query followed by two bytes `9`, and
the clock readings `tGet` and `tSet`. -/
def echoForwarder (lines : List GoString) (tGet tSet : Int) : Forwarder :=
  ⟨NewBlocker (fun r => r) lines, fun r => r, id, fun q => .ok (q ++ [9, 9]), tGet, tSet⟩

/-! ## Lemmas on strings and slices -/

theorem HasPrefix_iff (s p : GoString) : HasPrefix s p = true ↔ p <+: s := by
  unfold HasPrefix
  exact List.isPrefixOf_iff_prefix

theorem HasSuffix_iff (s p : GoString) : HasSuffix s p = true ↔ p <:+ s := by
  unfold HasSuffix
  exact List.isSuffixOf_iff_suffix

theorem copyBytes_makeBytes (q : List UInt8) : copyBytes (makeBytes q.length) q = q := by
  simp [copyBytes, makeBytes]

theorem TrimSuffix_dot (s : GoString) :
    TrimSuffix s (str ".") = if s.getLast? = some 46 then s.dropLast else s := by
  have hs : str "." = [46] := by decide
  rw [hs]
  unfold TrimSuffix
  rcases List.eq_nil_or_concat s with h | ⟨l, c, h⟩
  · subst h; simp [HasSuffix]
  · subst h
    by_cases hc : c = 46
    · subst hc
      have : HasSuffix (l ++ [46]) [46] = true := (HasSuffix_iff _ _).2 ⟨l, rfl⟩
      simp [this]
    · have : HasSuffix (l ++ [c]) [46] = false := by
        rw [Bool.eq_false_iff]
        intro h
        rcases (HasSuffix_iff _ _).1 h with ⟨t, ht⟩
        have := List.append_inj' ht rfl
        simp at this
        exact hc this.2.symm
      simp [this, hc]

theorem normalized_eq (table : Nat → Nat) (d : GoString) :
    TrimSuffix (ToLower table d) (str ".") = normalized table d := by
  rw [TrimSuffix_dot]; rfl

/-! ## UTF-8 decoding and encoding -/

theorem toNat_ofNat_of_lt (n : Nat) (h : n < 256) : (UInt8.ofNat n).toNat = n := by
  simp only [UInt8.ofNat, UInt8.toNat, BitVec.toNat_ofNat]
  exact Nat.mod_eq_of_lt h

theorem decodeCore_width_pos (n s0 s1 s2 s3 : Nat) : 1 ≤ (decodeCore n s0 s1 s2 s3).2 := by
  unfold decodeCore
  split_ifs <;> exact Nat.le_of_ble_eq_true rfl

theorem decodeCore_width_le (n s0 s1 s2 s3 : Nat) (hn : 1 ≤ n) :
    (decodeCore n s0 s1 s2 s3).2 ≤ n := by
  unfold decodeCore
  split_ifs <;> (simp only []; omega)

theorem decodeCore_valid (n s0 s1 s2 s3 : Nat) : ValidRune (decodeCore n s0 s1 s2 s3).1 := by
  unfold decodeCore ValidRune RuneError
  split_ifs <;> (simp only []; omega)

/-- A rune below `0x80` is decoded from one byte, the rune itself. -/
theorem decodeCore_ascii (n s0 s1 s2 s3 : Nat) (h : (decodeCore n s0 s1 s2 s3).1 < 0x80) :
    decodeCore n s0 s1 s2 s3 = (s0, 1) ∧ s0 < 0x80 := by
  unfold decodeCore RuneError at h ⊢
  split_ifs at h ⊢
  · rename_i h0; exact ⟨rfl, h0⟩
  all_goals (simp only [] at h; omega)

theorem decodeCore_of_ascii (n s0 s1 s2 s3 : Nat) (h : s0 < 0x80) :
    decodeCore n s0 s1 s2 s3 = (s0, 1) := by
  unfold decodeCore
  rw [if_pos h]

/-- An ASCII byte ends the rune before it (string of one byte). -/
theorem decodeCore_sync1 (n' s0 b x y : Nat) (hb : b < 0x80) :
    decodeCore n' s0 b x y = decodeCore 1 s0 0 0 0 := by
  unfold decodeCore
  split_ifs <;> first | omega | rfl

/-- An ASCII byte ends the rune before it (string of two bytes). -/
theorem decodeCore_sync2 (n' s0 s1 b y : Nat) (hn : 2 ≤ n') (hb : b < 0x80) :
    decodeCore n' s0 s1 b y = decodeCore 2 s0 s1 0 0 := by
  unfold decodeCore
  split_ifs <;> first | omega | rfl

/-- An ASCII byte ends the rune before it (string of three bytes). -/
theorem decodeCore_sync3 (n' s0 s1 s2 b : Nat) (hn : 3 ≤ n') (hb : b < 0x80) :
    decodeCore n' s0 s1 s2 b = decodeCore 3 s0 s1 s2 0 := by
  unfold decodeCore
  split_ifs <;> first | omega | rfl

/-- The decoder reads at most four bytes. -/
theorem decodeCore_sync4 (n n' s0 s1 s2 s3 : Nat) (hn : 4 ≤ n) (hn' : 4 ≤ n') :
    decodeCore n' s0 s1 s2 s3 = decodeCore n s0 s1 s2 s3 := by
  unfold decodeCore
  split_ifs <;> first | omega | rfl

theorem DecodeRune_nil : DecodeRuneInString [] = (RuneError, 0) := rfl

theorem DecodeRune_width_pos (s : GoString) (hs : s ≠ []) : 1 ≤ (DecodeRuneInString s).2 := by
  have hl : ¬ s.length < 1 := by
    cases s with
    | nil => exact absurd rfl hs
    | cons a t => simp
  unfold DecodeRuneInString
  rw [if_neg hl]
  exact decodeCore_width_pos _ _ _ _ _

theorem DecodeRune_width_le (s : GoString) : (DecodeRuneInString s).2 ≤ s.length := by
  unfold DecodeRuneInString
  by_cases hl : s.length < 1
  · rw [if_pos hl]; exact Nat.zero_le _
  · rw [if_neg hl]; exact decodeCore_width_le _ _ _ _ _ (by omega)

theorem DecodeRune_valid (s : GoString) : ValidRune (DecodeRuneInString s).1 := by
  unfold DecodeRuneInString
  by_cases hl : s.length < 1
  · rw [if_pos hl]; decide
  · rw [if_neg hl]; exact decodeCore_valid _ _ _ _ _

theorem DecodeRune_cons_ascii (b : UInt8) (t : GoString) (hb : b.toNat < 0x80) :
    DecodeRuneInString (b :: t) = (b.toNat, 1) := by
  unfold DecodeRuneInString
  have hl : ¬ (b :: t).length < 1 := by simp
  rw [if_neg hl]
  exact decodeCore_of_ascii _ _ _ _ _ hb

/-- An ASCII byte ends the rune before it: a non-empty string and the same
string followed by an ASCII byte and more start with the same rune. -/
theorem DecodeRune_append_ascii (s : GoString) (b : UInt8) (t : GoString) (hs : s ≠ [])
    (hb : b.toNat < 0x80) : DecodeRuneInString (s ++ b :: t) = DecodeRuneInString s := by
  rcases s with _ | ⟨a1, _ | ⟨a2, _ | ⟨a3, _ | ⟨a4, r⟩⟩⟩⟩
  · exact absurd rfl hs
  · have h1 : ¬ ([a1] ++ b :: t).length < 1 := by simp
    have h2 : ¬ ([a1] : GoString).length < 1 := by simp
    unfold DecodeRuneInString
    rw [if_neg h1, if_neg h2]
    exact decodeCore_sync1 _ _ _ _ _ hb
  · have h1 : ¬ ([a1, a2] ++ b :: t).length < 1 := by simp
    have h2 : ¬ ([a1, a2] : GoString).length < 1 := by simp
    unfold DecodeRuneInString
    rw [if_neg h1, if_neg h2]
    exact decodeCore_sync2 _ _ _ _ _ (by simp) hb
  · have h1 : ¬ ([a1, a2, a3] ++ b :: t).length < 1 := by simp
    have h2 : ¬ ([a1, a2, a3] : GoString).length < 1 := by simp
    unfold DecodeRuneInString
    rw [if_neg h1, if_neg h2]
    exact decodeCore_sync3 _ _ _ _ _ (by simp) hb
  · have h1 : ¬ (a1 :: a2 :: a3 :: a4 :: r ++ b :: t).length < 1 := by simp
    have h2 : ¬ (a1 :: a2 :: a3 :: a4 :: r : GoString).length < 1 := by simp
    unfold DecodeRuneInString
    rw [if_neg h1, if_neg h2]
    exact decodeCore_sync4 _ _ _ _ _ _ (by simp) (by simp)

theorem EncodeRune_ascii (r : Nat) (h : r < 0x80) : EncodeRune r = [UInt8.ofNat r] := by
  unfold EncodeRune
  rw [if_pos h]

theorem EncodeRune_ne_nil (r : Nat) : EncodeRune r ≠ [] := by
  unfold EncodeRune
  split_ifs <;> simp

/-- Only the runes below `0x80` have a byte below `0x80` in their encoding:
the byte is the rune. -/
theorem EncodeRune_mem_ascii (r : Nat) (b : UInt8) (hb : b ∈ EncodeRune r)
    (hlt : b.toNat < 0x80) : r = b.toNat ∧ EncodeRune r = [b] := by
  unfold EncodeRune at hb ⊢
  have e1 : (0xEF : UInt8).toNat = 0xEF := by decide
  have e2 : (0xBF : UInt8).toNat = 0xBF := by decide
  have e3 : (0xBD : UInt8).toNat = 0xBD := by decide
  split_ifs at hb ⊢ with h1 h2 h3 h4
  · simp only [List.mem_singleton] at hb
    subst hb
    rw [toNat_ofNat_of_lt _ (by omega)]
    exact ⟨rfl, rfl⟩
  · simp only [List.mem_cons, List.mem_singleton, List.not_mem_nil, or_false] at hb
    rcases hb with hb | hb <;> (subst hb; rw [toNat_ofNat_of_lt _ (by omega)] at hlt; omega)
  · simp only [List.mem_cons, List.mem_singleton, List.not_mem_nil, or_false] at hb
    rcases hb with hb | hb | hb <;> (subst hb; omega)
  · simp only [List.mem_cons, List.mem_singleton, List.not_mem_nil, or_false] at hb
    rcases hb with hb | hb | hb <;>
      (subst hb; rw [toNat_ofNat_of_lt _ (by omega)] at hlt; omega)
  · simp only [List.mem_cons, List.mem_singleton, List.not_mem_nil, or_false] at hb
    rcases hb with hb | hb | hb | hb <;>
      (subst hb; rw [toNat_ofNat_of_lt _ (by omega)] at hlt; omega)

/-- Decoding undoes encoding: a string that starts with the encoding of a
valid rune decodes to that rune, with the width of the encoding. -/
theorem DecodeRune_EncodeRune (r : Nat) (t : GoString) (hr : ValidRune r) :
    DecodeRuneInString (EncodeRune r ++ t) = (r, (EncodeRune r).length) := by
  obtain ⟨hmax, hsur⟩ := hr
  unfold EncodeRune
  by_cases h1 : r < 0x80
  · rw [if_pos h1]
    have := DecodeRune_cons_ascii (UInt8.ofNat r) t (by rw [toNat_ofNat_of_lt _ (by omega)]; exact h1)
    rw [toNat_ofNat_of_lt _ (by omega)] at this
    exact this
  · rw [if_neg h1]
    by_cases h2 : r < 0x800
    · rw [if_pos h2]
      unfold DecodeRuneInString
      have hl : ¬ ([UInt8.ofNat (0xC0 + r / 64), UInt8.ofNat (0x80 + r % 64)] ++ t).length < 1 := by
        simp
      rw [if_neg hl]
      simp only [List.cons_append, List.nil_append, List.getD_cons_zero, List.getD_cons_succ,
        List.length_cons]
      rw [toNat_ofNat_of_lt _ (by omega), toNat_ofNat_of_lt _ (by omega)]
      unfold decodeCore
      split_ifs <;> first | omega | (simp only [Prod.mk.injEq, List.length_cons, List.length_nil, and_true]; omega)
    · rw [if_neg h2]
      have h3 : ¬ (0x10FFFF < r ∨ (0xD800 ≤ r ∧ r ≤ 0xDFFF)) := by omega
      rw [if_neg h3]
      by_cases h4 : r < 0x10000
      · rw [if_pos h4]
        unfold DecodeRuneInString
        have hl : ¬ ([UInt8.ofNat (0xE0 + r / 4096), UInt8.ofNat (0x80 + r / 64 % 64),
            UInt8.ofNat (0x80 + r % 64)] ++ t).length < 1 := by simp
        rw [if_neg hl]
        simp only [List.cons_append, List.nil_append, List.getD_cons_zero, List.getD_cons_succ,
          List.length_cons]
        rw [toNat_ofNat_of_lt _ (by omega), toNat_ofNat_of_lt _ (by omega),
          toNat_ofNat_of_lt _ (by omega)]
        unfold decodeCore
        split_ifs <;> first | omega | (simp only [Prod.mk.injEq, List.length_cons, List.length_nil, and_true]; omega)
      · rw [if_neg h4]
        unfold DecodeRuneInString
        have hl : ¬ ([UInt8.ofNat (0xF0 + r / 262144), UInt8.ofNat (0x80 + r / 4096 % 64),
            UInt8.ofNat (0x80 + r / 64 % 64), UInt8.ofNat (0x80 + r % 64)] ++ t).length < 1 := by
          simp
        rw [if_neg hl]
        simp only [List.cons_append, List.nil_append, List.getD_cons_zero, List.getD_cons_succ,
          List.length_cons]
        rw [toNat_ofNat_of_lt _ (by omega), toNat_ofNat_of_lt _ (by omega),
          toNat_ofNat_of_lt _ (by omega), toNat_ofNat_of_lt _ (by omega)]
        unfold decodeCore
        split_ifs <;> first | omega | (simp only [Prod.mk.injEq, List.length_cons, List.length_nil, and_true]; omega)

/-! ## The runes of a string -/

theorem runesAux_fuel (n : Nat) :
    ∀ (s : GoString) (f1 f2 : Nat), s.length ≤ n → n ≤ f1 → n ≤ f2 →
      runesAux f1 s = runesAux f2 s := by
  induction n with
  | zero =>
    intro s f1 f2 hs _ _
    have : s = [] := List.eq_nil_of_length_eq_zero (by omega)
    subst this
    cases f1 <;> cases f2 <;> simp [runesAux]
  | succ n ih =>
    intro s f1 f2 hs h1 h2
    obtain ⟨g1, rfl⟩ : ∃ g, f1 = g + 1 := ⟨f1 - 1, by omega⟩
    obtain ⟨g2, rfl⟩ : ∃ g, f2 = g + 1 := ⟨f2 - 1, by omega⟩
    simp only [runesAux]
    by_cases hnil : s = []
    · rw [if_pos hnil, if_pos hnil]
    · rw [if_neg hnil, if_neg hnil]
      have hw := DecodeRune_width_pos s hnil
      rw [ih (s.drop (DecodeRuneInString s).2) g1 g2 (by rw [List.length_drop]; omega)
        (by omega) (by omega)]

theorem runes_nil : runes [] = [] := rfl

/-- The loop `range s` on a non-empty string: its first rune, then the runes of
the rest. -/
theorem runes_eq (s : GoString) (hs : s ≠ []) :
    runes s = (DecodeRuneInString s).1 :: runes (s.drop (DecodeRuneInString s).2) := by
  have hw := DecodeRune_width_pos s hs
  have hpos : 0 < s.length := List.length_pos.2 hs
  unfold runes
  obtain ⟨n, hn⟩ : ∃ n, s.length = n + 1 := ⟨s.length - 1, by omega⟩
  rw [hn]
  simp only [runesAux, if_neg hs]
  rw [runesAux_fuel (s.drop (DecodeRuneInString s).2).length (s.drop (DecodeRuneInString s).2) n
    (s.drop (DecodeRuneInString s).2).length (le_refl _) (by rw [List.length_drop]; omega)
    (le_refl _)]

theorem runes_ne_nil (s : GoString) (hs : s ≠ []) : runes s ≠ [] := by
  rw [runes_eq s hs]
  exact List.cons_ne_nil _ _

theorem runes_cons_ascii (b : UInt8) (t : GoString) (hb : b.toNat < 0x80) :
    runes (b :: t) = b.toNat :: runes t := by
  rw [runes_eq _ (List.cons_ne_nil _ _), DecodeRune_cons_ascii b t hb]
  rfl

theorem runes_valid (s : GoString) : ∀ c ∈ runes s, ValidRune c := by
  generalize hlen : s.length = n
  induction n using Nat.strong_induction_on generalizing s with
  | _ n ih =>
    intro c hc
    by_cases hs : s = []
    · subst hs; simp [runes_nil] at hc
    · rw [runes_eq s hs] at hc
      have hw := DecodeRune_width_pos s hs
      have hpos : 0 < s.length := List.length_pos.2 hs
      rcases List.mem_cons.1 hc with h | h
      · rw [h]; exact DecodeRune_valid s
      · exact ih (s.drop (DecodeRuneInString s).2).length
          (by rw [List.length_drop]; omega) _ rfl c h

/-- An ASCII byte ends the rune before it and is a rune of its own. -/
theorem runes_append_ascii (s : GoString) (b : UInt8) (t : GoString) (hb : b.toNat < 0x80) :
    runes (s ++ b :: t) = runes s ++ b.toNat :: runes t := by
  generalize hlen : s.length = n
  induction n using Nat.strong_induction_on generalizing s with
  | _ n ih =>
    by_cases hs : s = []
    · subst hs
      rw [List.nil_append, runes_nil, List.nil_append, runes_cons_ascii b t hb]
    · have hne : s ++ b :: t ≠ [] := by simp
      have hw := DecodeRune_width_pos s hs
      have hle := DecodeRune_width_le s
      have hpos : 0 < s.length := List.length_pos.2 hs
      rw [runes_eq _ hne, DecodeRune_append_ascii s b t hs hb, runes_eq s hs,
        List.drop_append_of_le_length hle,
        ih (s.drop (DecodeRuneInString s).2).length (by rw [List.length_drop]; omega) _ rfl]
      rfl

theorem runes_encode (r : Nat) (t : GoString) (hr : ValidRune r) :
    runes (EncodeRune r ++ t) = r :: runes t := by
  have hne : EncodeRune r ++ t ≠ [] := by
    intro h
    exact EncodeRune_ne_nil r (List.append_eq_nil.1 h).1
  rw [runes_eq _ hne, DecodeRune_EncodeRune r t hr]
  simp

theorem runes_flatMap_encode (cs : List Nat) (t : GoString) (h : ∀ c ∈ cs, ValidRune c) :
    runes (cs.flatMap EncodeRune ++ t) = cs ++ runes t := by
  induction cs with
  | nil => simp
  | cons c cs ih =>
    rw [List.flatMap_cons, List.append_assoc, runes_encode c _ (h c (List.mem_cons_self _ _)),
      ih (fun c' hc' => h c' (List.mem_cons_of_mem _ hc'))]
    rfl

theorem ofNat_toNat_byte (c : UInt8) : UInt8.ofNat c.toNat = c := by
  apply UInt8.ext
  exact toNat_ofNat_of_lt _ c.toNat_lt_size

theorem toLowerByte_toNat (c : UInt8) :
    (toLowerByte c).toNat = if 65 ≤ c.toNat ∧ c.toNat ≤ 90 then c.toNat + 32 else c.toNat := by
  unfold toLowerByte
  split_ifs with h
  · exact toNat_ofNat_of_lt _ (by omega)
  · rfl

theorem toUpperByte_toNat (c : UInt8) :
    (toUpperByte c).toNat = if 97 ≤ c.toNat ∧ c.toNat ≤ 122 then c.toNat - 32 else c.toNat := by
  unfold toUpperByte
  split_ifs with h
  · exact toNat_ofNat_of_lt _ (by omega)
  · rfl

/-! ## `strings.Map` and `strings.ToLower` -/

theorem Map_nil (f : Nat → Nat) : Map f [] = [] := rfl

theorem Map_cons_ascii (f : Nat → Nat) (b : UInt8) (t : GoString) (hb : b.toNat < 0x80) :
    Map f (b :: t) = EncodeRune (f b.toNat) ++ Map f t := by
  simp only [Map, runes_cons_ascii b t hb, List.flatMap_cons]

theorem Map_append_ascii (f : Nat → Nat) (s : GoString) (b : UInt8) (t : GoString)
    (hb : b.toNat < 0x80) : Map f (s ++ b :: t) = Map f s ++ (EncodeRune (f b.toNat) ++ Map f t) := by
  simp only [Map, runes_append_ascii s b t hb, List.flatMap_append, List.flatMap_cons]

theorem EncodeRune_unicodeToLower_ascii (table : Nat → Nat) (b : UInt8) (hb : b.toNat < 0x80) :
    EncodeRune (unicodeToLower table b.toNat) = [toLowerByte b] := by
  unfold unicodeToLower toLowerByte
  have h7 : b.toNat ≤ 0x7F := by omega
  rw [if_pos h7]
  by_cases h : 0x41 ≤ b.toNat ∧ b.toNat ≤ 0x5A
  · rw [if_pos h, if_pos h, EncodeRune_ascii _ (by omega)]
  · rw [if_neg h, if_neg h, EncodeRune_ascii _ hb, ofNat_toNat_byte]

/-- On a string of ASCII bytes `Map(unicode.ToLower, s)` is the byte-wise
lower-casing, so `ToLower` is `Map(unicode.ToLower, s)` on every string. -/
theorem ToLower_eq_Map (table : Nat → Nat) (s : GoString) :
    ToLower table s = Map (unicodeToLower table) s := by
  unfold ToLower
  by_cases h : s.all (fun c => decide (c.toNat < 0x80)) = true
  · rw [if_pos h]
    induction s with
    | nil => rfl
    | cons b t ih =>
      simp only [List.all_cons, Bool.and_eq_true, decide_eq_true_eq] at h
      rw [Map_cons_ascii _ b t h.1, EncodeRune_unicodeToLower_ascii table b h.1, List.map_cons,
        ih h.2]
      rfl
  · rw [if_neg h]

theorem ToLower_nil (table : Nat → Nat) : ToLower table [] = [] := rfl

theorem ToLower_cons_ascii (table : Nat → Nat) (b : UInt8) (t : GoString)
    (hb : b.toNat < 0x80) : ToLower table (b :: t) = toLowerByte b :: ToLower table t := by
  rw [ToLower_eq_Map, ToLower_eq_Map, Map_cons_ascii _ b t hb,
    EncodeRune_unicodeToLower_ascii table b hb]
  rfl

theorem ToLower_append_ascii (table : Nat → Nat) (s : GoString) (b : UInt8) (t : GoString)
    (hb : b.toNat < 0x80) :
    ToLower table (s ++ b :: t) = ToLower table s ++ toLowerByte b :: ToLower table t := by
  rw [ToLower_eq_Map, ToLower_eq_Map, ToLower_eq_Map, Map_append_ascii _ s b t hb,
    EncodeRune_unicodeToLower_ascii table b hb]
  rfl

/-- Lower-casing a lower-cased string changes nothing, for case tables that
keep valid runes valid and lower-case runes fixed. -/
theorem ToLower_idem (table : Nat → Nat)
    (hvalid : ∀ r, ValidRune r → ValidRune (unicodeToLower table r))
    (hidem : ∀ r, ValidRune r →
      unicodeToLower table (unicodeToLower table r) = unicodeToLower table r)
    (s : GoString) : ToLower table (ToLower table s) = ToLower table s := by
  rw [ToLower_eq_Map, ToLower_eq_Map]
  have hv := runes_valid s
  have h1 : Map (unicodeToLower table) s
      = ((runes s).map (unicodeToLower table)).flatMap EncodeRune := by
    simp only [Map, List.flatMap_map]
  have h2 : runes (Map (unicodeToLower table) s) = (runes s).map (unicodeToLower table) := by
    have := runes_flatMap_encode ((runes s).map (unicodeToLower table)) []
      (by
        intro c hc
        rcases List.mem_map.1 hc with ⟨r, hr, rfl⟩
        exact hvalid r (hv r hr))
    rw [List.append_nil, runes_nil, List.append_nil] at this
    rw [h1, this]
  have h3 : Map (unicodeToLower table) (Map (unicodeToLower table) s)
      = (runes (Map (unicodeToLower table) s)).flatMap
          (fun c => EncodeRune (unicodeToLower table c)) := rfl
  have h4 : Map (unicodeToLower table) s
      = (runes s).flatMap (fun c => EncodeRune (unicodeToLower table c)) := rfl
  rw [h3, h2, h4, List.flatMap_map]
  apply List.flatMap_congr
  intro r hr
  rw [hidem r (hv r hr)]

/-! ## Re-casing, dots and valid strings under `ToLower` -/

theorem decodeCore_recase (n s0 s1 s2 s3 s1' s2' s3' : Nat) (h0 : 0x80 ≤ s0)
    (h1 : s1' = s1 ∨ (s1' < 0x80 ∧ s1 < 0x80)) (h2 : s2' = s2 ∨ (s2' < 0x80 ∧ s2 < 0x80))
    (h3 : s3' = s3 ∨ (s3' < 0x80 ∧ s3 < 0x80)) :
    decodeCore n s0 s1' s2' s3' = decodeCore n s0 s1 s2 s3 := by
  unfold decodeCore
  split_ifs <;> first | omega | (simp only [Prod.mk.injEq, and_true]; omega) | rfl

/-- A byte and its re-casing: equal when not ASCII, else both ASCII with the
same lower case. -/
theorem recase_byte (a b : UInt8) (h : a = b ∨ a = toUpperByte b ∨ a = toLowerByte b) :
    (a.toNat = b.toNat ∨ (a.toNat < 0x80 ∧ b.toNat < 0x80))
    ∧ (0x80 ≤ b.toNat → a = b)
    ∧ (b.toNat < 0x80 → a.toNat < 0x80
        ∧ ∀ table : Nat → Nat, unicodeToLower table a.toNat = unicodeToLower table b.toNat) := by
  have hb := b.toNat_lt_size
  have hu := toUpperByte_toNat b
  have hl := toLowerByte_toNat b
  have key : a.toNat = b.toNat ∨ (a.toNat = (toUpperByte b).toNat) ∨ a.toNat = (toLowerByte b).toNat := by
    rcases h with h | h | h
    · exact Or.inl (by rw [h])
    · exact Or.inr (Or.inl (by rw [h]))
    · exact Or.inr (Or.inr (by rw [h]))
  rw [hu, hl] at key
  refine ⟨?_, ?_, ?_⟩
  · split_ifs at key <;> omega
  · intro h8
    apply UInt8.ext
    split_ifs at key <;> omega
  · intro h8
    refine ⟨by split_ifs at key <;> omega, ?_⟩
    intro table
    unfold unicodeToLower
    split_ifs at key ⊢ <;> omega

theorem isRecasing_getD (e d : GoString) (h : isRecasing e d) :
    ∀ i : Nat, (e.getD i 0 = d.getD i 0 ∨ e.getD i 0 = toUpperByte (d.getD i 0)
      ∨ e.getD i 0 = toLowerByte (d.getD i 0)) := by
  unfold isRecasing at h
  induction h with
  | nil => intro i; left; rfl
  | cons hab _ ih =>
    intro i
    cases i with
    | zero => exact hab
    | succ i => exact ih i

theorem isRecasing_length (e d : GoString) (h : isRecasing e d) : e.length = d.length :=
  List.Forall₂.length_eq h

/-- A string and a re-casing of it have the same runes up to lower-casing. -/
theorem runes_recase (table : Nat → Nat) (d : GoString) :
    ∀ e : GoString, isRecasing e d →
      (runes e).map (unicodeToLower table) = (runes d).map (unicodeToLower table) := by
  generalize hlen : d.length = n
  induction n using Nat.strong_induction_on generalizing d with
  | _ n ih =>
    intro e h
    have hl := isRecasing_length e d h
    cases h with
    | nil => rfl
    | @cons a b e' d' hab htail =>
      obtain ⟨hnat, hhi, hlo⟩ := recase_byte a b hab
      by_cases hb : b.toNat < 0x80
      · obtain ⟨ha, hL⟩ := hlo hb
        rw [runes_cons_ascii a e' ha, runes_cons_ascii b d' hb, List.map_cons, List.map_cons,
          hL table, ih d'.length (by rw [← hlen]; simp) d' rfl e' htail]
      · have hab' : a = b := hhi (by omega)
        subst hab'
        have hdec : DecodeRuneInString (a :: e') = DecodeRuneInString (a :: d') := by
          have g := isRecasing_getD e' d' htail
          have hl' : (a :: e').length = (a :: d').length := hl
          unfold DecodeRuneInString
          rw [hl']
          by_cases h1 : (a :: d').length < 1
          · rw [if_pos h1, if_pos h1]
          · rw [if_neg h1, if_neg h1]
            exact decodeCore_recase _ _ _ _ _ _ _ _ (by simpa using hb)
              (recase_byte _ _ (g 0)).1 (recase_byte _ _ (g 1)).1 (recase_byte _ _ (g 2)).1
        have hne1 : (a :: e') ≠ [] := List.cons_ne_nil _ _
        have hne2 : (a :: d') ≠ [] := List.cons_ne_nil _ _
        have hw := DecodeRune_width_pos (a :: d') hne2
        rw [runes_eq _ hne1, runes_eq _ hne2, hdec, List.map_cons, List.map_cons]
        congr 1
        have hdrop : isRecasing ((a :: e').drop (DecodeRuneInString (a :: d')).2)
            ((a :: d').drop (DecodeRuneInString (a :: d')).2) :=
          List.forall₂_drop _ (List.Forall₂.cons hab htail)
        exact ih _ (by rw [← hlen, List.length_drop]; simp; omega) _ rfl _ hdrop

theorem ToLower_recase (table : Nat → Nat) (e d : GoString) (h : isRecasing e d) :
    ToLower table e = ToLower table d := by
  rw [ToLower_eq_Map, ToLower_eq_Map]
  have := runes_recase table d e h
  have f1 : ∀ s : GoString, Map (unicodeToLower table) s
      = ((runes s).map (unicodeToLower table)).flatMap EncodeRune := by
    intro s; simp only [Map, List.flatMap_map]
  rw [f1, f1, this]

theorem singleton_suffix_iff (c : UInt8) (l : GoString) : [c] <:+ l ↔ l.getLast? = some c := by
  constructor
  · rintro ⟨t, rfl⟩
    simp
  · intro h
    rcases List.eq_nil_or_concat l with hl | ⟨t, x, hl⟩
    · subst hl; simp at h
    · rw [List.concat_eq_append] at hl
      subst hl
      simp at h
      subst h
      exact ⟨t, rfl⟩

theorem Map_ne_nil (f : Nat → Nat) (s : GoString) (hs : s ≠ []) : Map f s ≠ [] := by
  unfold Map
  rw [runes_eq s hs, List.flatMap_cons]
  intro h
  exact EncodeRune_ne_nil _ (List.append_eq_nil.1 h).1

theorem Map_eq (f : Nat → Nat) (s : GoString) (hs : s ≠ []) :
    Map f s = EncodeRune (f (DecodeRuneInString s).1)
      ++ Map f (s.drop (DecodeRuneInString s).2) := by
  unfold Map
  rw [runes_eq s hs, List.flatMap_cons]

/-- A mapped string ends in a dot only if the string does, for a mapping that
sends no other rune to the dot. -/
theorem Map_dot_suffix (f : Nat → Nat) (hnodot : ∀ r, f r = 0x2E → r = 0x2E) (x : GoString) :
    [46] <:+ Map f x → [46] <:+ x := by
  generalize hlen : x.length = n
  induction n using Nat.strong_induction_on generalizing x with
  | _ n ih =>
    intro h
    by_cases hx : x = []
    · subst hx
      rw [Map_nil] at h
      exact h
    · have hw := DecodeRune_width_pos x hx
      have hle := DecodeRune_width_le x
      rw [Map_eq f x hx] at h
      by_cases hrest : x.drop (DecodeRuneInString x).2 = []
      · rw [hrest, Map_nil, List.append_nil] at h
        have hmem : (46 : UInt8) ∈ EncodeRune (f (DecodeRuneInString x).1) :=
          h.subset (List.mem_singleton_self _)
        have h46 : (46 : UInt8).toNat = 46 := by decide
        have hf := (EncodeRune_mem_ascii _ _ hmem (by rw [h46]; omega)).1
        rw [h46] at hf
        have hc := hnodot _ hf
        have hdec : DecodeRuneInString x
            = decodeCore x.length (x.getD 0 0).toNat (x.getD 1 0).toNat (x.getD 2 0).toNat
                (x.getD 3 0).toNat := by
          unfold DecodeRuneInString
          have : ¬ x.length < 1 := by
            have := List.length_pos.2 hx
            omega
          rw [if_neg this]
        have ha := decodeCore_ascii x.length (x.getD 0 0).toNat (x.getD 1 0).toNat
          (x.getD 2 0).toNat (x.getD 3 0).toNat (by rw [← hdec, hc]; omega)
        rw [← hdec] at ha
        have hw1 : (DecodeRuneInString x).2 = 1 := by rw [ha.1]
        have hr0 : (DecodeRuneInString x).1 = (x.getD 0 0).toNat := by rw [ha.1]
        rw [hw1] at hrest
        cases x with
        | nil => exact absurd rfl hx
        | cons b t =>
          simp only [List.drop_succ_cons, List.drop_zero] at hrest
          subst hrest
          have hb : b.toNat = 46 := by
            rw [hr0] at hc
            simpa using hc
          have : b = 46 := UInt8.ext (by rw [hb, h46])
          rw [this]
      · have hne := Map_ne_nil f _ hrest
        rw [singleton_suffix_iff, List.getLast?_append_of_ne_nil _ hne,
          ← singleton_suffix_iff] at h
        have := ih _ (by rw [← hlen, List.length_drop]; have := List.length_pos.2 hx; omega) _ rfl h
        exact this.trans (List.drop_suffix _ _)

theorem ToLower_dot_suffix (table : Nat → Nat)
    (hnodot : ∀ r, unicodeToLower table r = 0x2E → r = 0x2E) (x : GoString)
    (h : [46] <:+ ToLower table x) : [46] <:+ x := by
  rw [ToLower_eq_Map] at h
  exact Map_dot_suffix _ hnodot x h

theorem ToLower_ne_nil (table : Nat → Nat) (s : GoString) (hs : s ≠ []) :
    ToLower table s ≠ [] := by
  rw [ToLower_eq_Map]
  exact Map_ne_nil _ s hs

/-- Behind a valid string the decoder starts afresh. -/
theorem runes_append_valid (a t : GoString) (ha : ValidString a) :
    runes (a ++ t) = runes a ++ runes t := by
  unfold ValidString at ha
  have := runes_flatMap_encode (runes a) t (runes_valid a)
  rw [ha] at this
  exact this

theorem ToLower_append_valid (table : Nat → Nat) (a t : GoString) (ha : ValidString a) :
    ToLower table (a ++ t) = ToLower table a ++ ToLower table t := by
  rw [ToLower_eq_Map, ToLower_eq_Map, ToLower_eq_Map]
  simp only [Map, runes_append_valid a t ha, List.flatMap_append]

theorem ToLower_dot_not_mem (table : Nat → Nat)
    (hnodot : ∀ r, unicodeToLower table r = 0x2E → r = 0x2E) (a : GoString)
    (ha : ValidString a) (hdot : (46 : UInt8) ∉ a) : (46 : UInt8) ∉ ToLower table a := by
  intro hmem
  rw [ToLower_eq_Map] at hmem
  unfold Map at hmem
  rcases List.mem_flatMap.1 hmem with ⟨c, hc, h46⟩
  have e46 : (46 : UInt8).toNat = 46 := by decide
  have hf := (EncodeRune_mem_ascii _ _ h46 (by rw [e46]; omega)).1
  rw [e46] at hf
  have hc46 := hnodot c hf
  apply hdot
  unfold ValidString at ha
  rw [← ha]
  apply List.mem_flatMap.2
  refine ⟨c, hc, ?_⟩
  rw [hc46, EncodeRune_ascii _ (by omega)]
  exact List.mem_singleton.2 (by decide)

/-! ## The block matcher decides exactly the four rule categories -/

/-- C3. `IsBlocked d` is true exactly when the normalised domain is in the exact
set, or equals or ends with `"." ++ s` for a suffix rule `s`, or equals or starts
with `p ++ "."` for a prefix rule `p`, or starts with the prefix literal and
ends with the suffix literal of a middle rule; so a domain matching no rule is
not blocked, and nothing is blocked on the empty rule set. -/
theorem IsBlocked_iff_matches_rule :
    (∀ (table : Nat → Nat) (b : Blocker) (d : GoString),
      b.IsBlocked table d = true ↔
        (normalized table d ∈ b.exactDomains
          ∨ (∃ s ∈ b.wildcardSuffix, normalized table d = s ∨ (str "." ++ s) <:+ normalized table d)
          ∨ (∃ p ∈ b.wildcardPrefix, normalized table d = p ∨ (p ++ str ".") <+: normalized table d)
          ∨ (∃ m ∈ b.wildcardMiddle,
              m.prefixLit <+: normalized table d ∧ m.suffix <:+ normalized table d)))
    ∧ (∀ (table : Nat → Nat) (b : Blocker) (d : GoString),
        normalized table d ∉ b.exactDomains →
        (∀ s ∈ b.wildcardSuffix, normalized table d ≠ s ∧ ¬ (str "." ++ s) <:+ normalized table d) →
        (∀ p ∈ b.wildcardPrefix, normalized table d ≠ p ∧ ¬ (p ++ str ".") <+: normalized table d) →
        (∀ m ∈ b.wildcardMiddle,
          ¬ (m.prefixLit <+: normalized table d ∧ m.suffix <:+ normalized table d)) →
        b.IsBlocked table d = false)
    ∧ (∀ (table : Nat → Nat) (d : GoString), Blocker.empty.IsBlocked table d = false) := by
  have key : ∀ (table : Nat → Nat) (b : Blocker) (d : GoString),
      b.IsBlocked table d = true ↔
        (normalized table d ∈ b.exactDomains
          ∨ (∃ s ∈ b.wildcardSuffix, normalized table d = s ∨ (str "." ++ s) <:+ normalized table d)
          ∨ (∃ p ∈ b.wildcardPrefix, normalized table d = p ∨ (p ++ str ".") <+: normalized table d)
          ∨ (∃ m ∈ b.wildcardMiddle,
              m.prefixLit <+: normalized table d ∧ m.suffix <:+ normalized table d)) := by
    intro table b d
    unfold Blocker.IsBlocked
    simp only [normalized_eq]
    by_cases h1 : normalized table d ∈ b.exactDomains
    · simp [h1]
    · by_cases h2 : ∃ s ∈ b.wildcardSuffix, normalized table d = s ∨ (str "." ++ s) <:+ normalized table d
      · have : b.wildcardSuffix.any
            (fun suffix => HasSuffix (normalized table d) (str "." ++ suffix) || normalized table d == suffix)
              = true := by
          rcases h2 with ⟨s, hs, h⟩
          rw [List.any_eq_true]
          refine ⟨s, hs, ?_⟩
          rcases h with h | h
          · simp [h]
          · simp [(HasSuffix_iff _ _).2 h]
        simp [h1, this, h2]
      · have n2 : b.wildcardSuffix.any
            (fun suffix => HasSuffix (normalized table d) (str "." ++ suffix) || normalized table d == suffix)
              = false := by
          rw [Bool.eq_false_iff]
          intro h
          rw [List.any_eq_true] at h
          rcases h with ⟨s, hs, h⟩
          apply h2
          refine ⟨s, hs, ?_⟩
          simp only [Bool.or_eq_true, beq_iff_eq] at h
          rcases h with h | h
          · exact Or.inr ((HasSuffix_iff _ _).1 h)
          · exact Or.inl h
        by_cases h3 : ∃ p ∈ b.wildcardPrefix, normalized table d = p ∨ (p ++ str ".") <+: normalized table d
        · have : b.wildcardPrefix.any
              (fun pre => HasPrefix (normalized table d) (pre ++ str ".") || normalized table d == pre)
                = true := by
            rcases h3 with ⟨p, hp, h⟩
            rw [List.any_eq_true]
            refine ⟨p, hp, ?_⟩
            rcases h with h | h
            · simp [h]
            · simp [(HasPrefix_iff _ _).2 h]
          simp [h1, n2, this, h3]
        · have n3 : b.wildcardPrefix.any
              (fun pre => HasPrefix (normalized table d) (pre ++ str ".") || normalized table d == pre)
                = false := by
            rw [Bool.eq_false_iff]
            intro h
            rw [List.any_eq_true] at h
            rcases h with ⟨p, hp, h⟩
            apply h3
            refine ⟨p, hp, ?_⟩
            simp only [Bool.or_eq_true, beq_iff_eq] at h
            rcases h with h | h
            · exact Or.inr ((HasPrefix_iff _ _).1 h)
            · exact Or.inl h
          have e4 : b.wildcardMiddle.any
              (fun pattern => HasPrefix (normalized table d) pattern.prefixLit
                && HasSuffix (normalized table d) pattern.suffix) = true ↔
              ∃ m ∈ b.wildcardMiddle,
                m.prefixLit <+: normalized table d ∧ m.suffix <:+ normalized table d := by
            rw [List.any_eq_true]
            constructor
            · rintro ⟨m, hm, h⟩
              simp only [Bool.and_eq_true] at h
              exact ⟨m, hm, (HasPrefix_iff _ _).1 h.1, (HasSuffix_iff _ _).1 h.2⟩
            · rintro ⟨m, hm, h⟩
              refine ⟨m, hm, ?_⟩
              simp [(HasPrefix_iff _ _).2 h.1, (HasSuffix_iff _ _).2 h.2]
          have c1 : b.exactDomains.contains (normalized table d) = false := by simpa using h1
          simp only [c1, n2, n3, Bool.false_eq_true, if_false]
          constructor
          · intro h
            by_cases h4 : b.wildcardMiddle.any
                (fun pattern => HasPrefix (normalized table d) pattern.prefixLit
                  && HasSuffix (normalized table d) pattern.suffix) = true
            · exact Or.inr (Or.inr (Or.inr (e4.1 h4)))
            · simp [h4] at h
          · rintro (h | h | h | h)
            · exact absurd h h1
            · exact absurd h h2
            · exact absurd h h3
            · simp [e4.2 h]
  refine ⟨key, ?_, ?_⟩
  · intro table b d h1 h2 h3 h4
    rw [Bool.eq_false_iff]
    intro h
    rcases (key table b d).1 h with h | ⟨s, hs, h⟩ | ⟨p, hp, h⟩ | ⟨m, hm, h⟩
    · exact h1 h
    · rcases h with h | h
      · exact (h2 s hs).1 h
      · exact (h2 s hs).2 h
    · rcases h with h | h
      · exact (h3 p hp).1 h
      · exact (h3 p hp).2 h
    · exact h4 m hm h
  · intro table d
    rw [Bool.eq_false_iff]
    intro h
    rcases (key table Blocker.empty d).1 h with h | ⟨s, hs, h⟩ | ⟨p, hp, h⟩ | ⟨m, hm, h⟩
    · simp [Blocker.empty] at h
    · simp [Blocker.empty] at hs
    · simp [Blocker.empty] at hp
    · simp [Blocker.empty] at hm

/-- C3 at a concrete rule set: `good.org.` matches none of the four rules. -/
theorem IsBlocked_iff_matches_rule_witness :
    (normalized (fun r => r) (str "Good.org.") ∉
        (NewBlocker (fun r => r)
          [str "bad.org", str "*.ads.net", str "track.*", str "ad*srv"]).exactDomains)
    ∧ (NewBlocker (fun r => r)
          [str "bad.org", str "*.ads.net", str "track.*", str "ad*srv"]).IsBlocked (fun r => r)
        (str "Good.org.") = false :=
  ⟨by decide,
   IsBlocked_iff_matches_rule.2.1 (fun r => r)
    (NewBlocker (fun r => r) [str "bad.org", str "*.ads.net", str "track.*", str "ad*srv"])
    (str "Good.org.") (by decide) (by decide) (by decide) (by decide)⟩

/-! ## Synthesised responses and the cache key -/

/-- C4. For a query of at least 12 bytes the blocked response has the length of
the query, `0x81` at offset 2, `0x83` at offset 3 and the query's byte at every
other offset; a query shorter than 12 bytes is returned as it is. -/
theorem createBlockedResponse_spec (q : List UInt8) :
    (12 ≤ q.length →
      (createBlockedResponse q).length = q.length
      ∧ (createBlockedResponse q)[2]? = some 0x81
      ∧ (createBlockedResponse q)[3]? = some 0x83
      ∧ ∀ i : Nat, i ≠ 2 → i ≠ 3 → (createBlockedResponse q)[i]? = q[i]?)
    ∧ (q.length < 12 → createBlockedResponse q = q) := by
  constructor
  · intro h
    have hlt : ¬ q.length < 12 := by omega
    simp only [createBlockedResponse, hlt, if_false, copyBytes_makeBytes]
    refine ⟨by simp, ?_, ?_, ?_⟩
    · rw [List.getElem?_set_ne (by omega), List.getElem?_set_self (by omega)]
    · rw [List.getElem?_set_self (by simp; omega)]
    · intro i h2 h3
      rw [List.getElem?_set_ne (Ne.symm h3), List.getElem?_set_ne (Ne.symm h2)]
  · intro h
    simp [createBlockedResponse, h]

/-- C4 on a 13-byte query and on a 3-byte query. -/
theorem createBlockedResponse_spec_witness :
    createBlockedResponse [0x12, 0x34, 1, 0, 0, 1, 0, 0, 0, 0, 0, 0, 0]
        = [0x12, 0x34, 0x81, 0x83, 0, 1, 0, 0, 0, 0, 0, 0, 0]
    ∧ (createBlockedResponse [0x12, 0x34, 1, 0, 0, 1, 0, 0, 0, 0, 0, 0, 0])[2]? = some 0x81
    ∧ createBlockedResponse [0x12, 0x34, 1] = [0x12, 0x34, 1] :=
  ⟨by decide,
   ((createBlockedResponse_spec [0x12, 0x34, 1, 0, 0, 1, 0, 0, 0, 0, 0, 0, 0]).1 (by decide)).2.1,
   (createBlockedResponse_spec [0x12, 0x34, 1]).2 (by decide)⟩

/-- C5. When the cached response and the query both have at least 2 bytes, the
adjusted response has the length of the cached one, the query's bytes at
offsets 0 and 1, and the cached byte at every offset from 2 on. -/
theorem adjustTransactionID_spec (cached query : List UInt8)
    (hc : 2 ≤ cached.length) (hq : 2 ≤ query.length) :
    (adjustTransactionID cached query).length = cached.length
    ∧ (adjustTransactionID cached query)[0]? = query[0]?
    ∧ (adjustTransactionID cached query)[1]? = query[1]?
    ∧ ∀ i : Nat, 2 ≤ i → (adjustTransactionID cached query)[i]? = cached[i]? := by
  have hn : ¬ (cached.length < 2 ∨ query.length < 2) := by omega
  simp only [adjustTransactionID, hn, if_false, copyBytes_makeBytes]
  refine ⟨by simp, ?_, ?_, ?_⟩
  · rw [List.getElem?_set_ne (by omega), List.getElem?_set_self (by omega)]
    match query, hq with
    | a :: b :: r, _ => simp
  · rw [List.getElem?_set_self (by simp; omega)]
    match query, hq with
    | a :: b :: r, _ => simp
  · intro i hi
    rw [List.getElem?_set_ne (by omega), List.getElem?_set_ne (by omega)]

/-- C5 on a response cached under ID `0x1234` and a query with ID `0xABCD`. -/
theorem adjustTransactionID_spec_witness :
    adjustTransactionID [0x12, 0x34, 0x81, 0x80, 7, 7] [0xAB, 0xCD, 1, 0]
        = [0xAB, 0xCD, 0x81, 0x80, 7, 7]
    ∧ (adjustTransactionID [0x12, 0x34, 0x81, 0x80, 7, 7] [0xAB, 0xCD, 1, 0]).length = 6 :=
  ⟨by decide,
   (adjustTransactionID_spec [0x12, 0x34, 0x81, 0x80, 7, 7] [0xAB, 0xCD, 1, 0]
      (by decide) (by decide)).1⟩

/-- C6. Two queries of equal length that agree on every byte from offset 2 on
have the same cache key, whatever function `Sum256` is. -/
theorem getCacheKey_ignores_id (Sum256 : List UInt8 → List UInt8) (q1 q2 : List UInt8)
    (hlen : q1.length = q2.length) (hrest : ∀ i : Nat, 2 ≤ i → q1[i]? = q2[i]?) :
    getCacheKey Sum256 q1 = getCacheKey Sum256 q2 := by
  have e2 : copyBytes (makeBytes q1.length) q2 = q2 := by
    rw [hlen]; exact copyBytes_makeBytes q2
  unfold getCacheKey
  rw [← hlen]
  by_cases h : q1.length < 12
  · simp [h]
  · simp only [h, if_false, copyBytes_makeBytes, e2]
    have : (q1.set 0 0).set 1 0 = (q2.set 0 0).set 1 0 := by
      apply List.ext_getElem?
      intro i
      by_cases h1 : i = 1
      · subst h1
        rw [List.getElem?_set_self (by simp; omega), List.getElem?_set_self (by simp; omega)]
      · by_cases h0 : i = 0
        · subst h0
          have l1 : 0 < q1.length := by omega
          have l2 : 0 < q2.length := by omega
          simp [List.getElem?_set, l1, l2]
        · rw [List.getElem?_set_ne (Ne.symm h1), List.getElem?_set_ne (Ne.symm h1),
            List.getElem?_set_ne (Ne.symm h0), List.getElem?_set_ne (Ne.symm h0)]
          exact hrest i (by omega)
    rw [this]

/-- C6 on two 13-byte queries with IDs `0x1234` and `0xABCD`, with the
identity in the place of the digest. -/
theorem getCacheKey_ignores_id_witness :
    getCacheKey id [0x12, 0x34, 1, 0, 0, 1, 0, 0, 0, 0, 0, 0, 0]
      = getCacheKey id [0xAB, 0xCD, 1, 0, 0, 1, 0, 0, 0, 0, 0, 0, 0] :=
  getCacheKey_ignores_id id [0x12, 0x34, 1, 0, 0, 1, 0, 0, 0, 0, 0, 0, 0]
    [0xAB, 0xCD, 1, 0, 0, 1, 0, 0, 0, 0, 0, 0, 0] (by decide)
    (by
      intro i hi
      match i, hi with
      | i + 2, _ => rfl)

/-! ## The question name: encoding and extraction -/

theorem getD_append_cons (pre : List UInt8) (x d : UInt8) (tail : List UInt8) :
    (pre ++ x :: tail).getD pre.length d = x := by
  induction pre with
  | nil => rfl
  | cons a pre ih => simpa using ih

theorem encodeLabels_cons (l : GoString) (ls : List GoString) :
    encodeLabels (l :: ls) = UInt8.ofNat l.length :: (l ++ encodeLabels ls) := by
  simp [encodeLabels]

theorem length_le_encodeLabels (ls : List GoString) : ls.length ≤ (encodeLabels ls).length := by
  induction ls with
  | nil => simp
  | cons l ls ih => rw [encodeLabels_cons]; simp; omega

/-- The loop of `extractDomain` reads a run of well-formed labels one per round
and goes on behind them with the labels appended to the name. -/
theorem extractLoop_labels (ls : List GoString) :
    ∀ (query pre rest acc : List UInt8) (fuel : Nat),
      query = pre ++ (encodeLabels ls ++ rest) →
      (∀ l ∈ ls, 1 ≤ l.length ∧ l.length ≤ 255) →
      extractLoop query (ls.length + fuel) pre.length acc
        = extractLoop query fuel (pre ++ encodeLabels ls).length (ls.foldl appendLabel acc) := by
  induction ls with
  | nil =>
    intro query pre rest acc fuel _ _
    simp [encodeLabels]
  | cons l ls ih =>
    intro query pre rest acc fuel hq hl
    have hl1 := hl l (List.mem_cons_self _ _)
    have hq2 : query = (pre ++ [UInt8.ofNat l.length]) ++ (l ++ (encodeLabels ls ++ rest)) := by
      rw [hq, encodeLabels_cons]; simp
    have hq3 : query = (pre ++ UInt8.ofNat l.length :: l) ++ (encodeLabels ls ++ rest) := by
      rw [hq, encodeLabels_cons]; simp
    have hlen : query.length
        = pre.length + 1 + l.length + (encodeLabels ls ++ rest).length := by
      rw [hq3]; simp only [List.length_append, List.length_cons]; omega
    have hget : query.getD pre.length 0 = UInt8.ofNat l.length := by
      rw [hq, encodeLabels_cons, List.cons_append]
      exact getD_append_cons _ _ _ _
    have hdrop : (query.drop (pre.length + 1)).take l.length = l := by
      rw [hq2, List.drop_left' (by simp), List.take_left' rfl]
    have hfuel : (l :: ls).length + fuel = (ls.length + fuel) + 1 := by
      simp only [List.length_cons]; omega
    rw [hfuel, extractLoop]
    have hpos : pre.length < query.length := by omega
    have hnz : ¬ (UInt8.ofNat l.length).toNat = 0 := by
      rw [toNat_ofNat_of_lt _ (by omega)]; omega
    have hfit : ¬ (pre.length + 1 + (UInt8.ofNat l.length).toNat > query.length) := by
      rw [toNat_ofNat_of_lt _ (by omega)]; omega
    simp only [hpos, if_true, hget, hnz, if_false, hfit]
    rw [toNat_ofNat_of_lt _ (by omega), hdrop]
    have hpre : pre.length + 1 + l.length = (pre ++ UInt8.ofNat l.length :: l).length := by
      simp only [List.length_append, List.length_cons]; omega
    rw [hpre, ih query (pre ++ UInt8.ofNat l.length :: l) rest _ fuel hq3
      (fun l' h' => hl l' (List.mem_cons_of_mem _ h'))]
    rw [encodeLabels_cons]
    simp [appendLabel]

theorem foldl_appendLabel_of_ne_nil (ls : List GoString) :
    ∀ acc : GoString, acc ≠ [] → (∀ l ∈ ls, 1 ≤ l.length) →
      ls.foldl appendLabel acc = Join (acc :: ls) (str ".") := by
  induction ls with
  | nil => intro acc _ _; simp [Join]
  | cons l ls ih =>
    intro acc hacc hl
    have h1 := hl l (List.mem_cons_self _ _)
    have hne : appendLabel acc l ≠ [] := by
      simp [appendLabel, hacc]
    rw [List.foldl_cons, ih _ hne (fun l' h' => hl l' (List.mem_cons_of_mem _ h'))]
    cases ls with
    | nil => simp [Join, appendLabel, hacc]
    | cons m ms => simp [Join, appendLabel, hacc]

theorem foldl_appendLabel_nil (ls : List GoString) (hl : ∀ l ∈ ls, 1 ≤ l.length) :
    ls.foldl appendLabel [] = Join ls (str ".") := by
  cases ls with
  | nil => simp [Join]
  | cons l ls =>
    have h1 := hl l (List.mem_cons_self _ _)
    have hne : l ≠ [] := by
      intro h; rw [h] at h1; simp at h1
    have : appendLabel [] l = l := by simp [appendLabel]
    rw [List.foldl_cons, this,
      foldl_appendLabel_of_ne_nil ls l hne (fun l' h' => hl l' (List.mem_cons_of_mem _ h'))]

theorem Join_ne_nil (ls : List GoString) (hne : ls ≠ []) (hl : ∀ l ∈ ls, 1 ≤ l.length) :
    Join ls (str ".") ≠ [] := by
  cases ls with
  | nil => exact absurd rfl hne
  | cons l ls =>
    have h1 := hl l (List.mem_cons_self _ _)
    have hl0 : l ≠ [] := by
      intro h; rw [h] at h1; simp at h1
    cases ls with
    | nil => simpa [Join] using hl0
    | cons m ms => simp [Join, hl0]

/-- C10. For a 12-byte header, a non-empty list of labels of 1 to 255 bytes each
and any trailing bytes, `extractDomain` on header, length-prefixed labels, zero
terminator and trailer returns the labels joined by dots. -/
theorem extractDomain_encodeLabels (h : List UInt8) (labels : List GoString) (r : List UInt8)
    (hh : h.length = 12) (hne : labels ≠ [])
    (hl : ∀ l ∈ labels, 1 ≤ l.length ∧ l.length ≤ 255) :
    extractDomain (h ++ encodeLabels labels ++ [0] ++ r) = Join labels (str ".") := by
  have hq : h ++ encodeLabels labels ++ [0] ++ r = h ++ (encodeLabels labels ++ (0 :: r)) := by
    simp
  rw [hq]
  have hlen : (h ++ (encodeLabels labels ++ (0 :: r))).length
      = 12 + (encodeLabels labels).length + 1 + r.length := by
    simp only [List.length_append, List.length_cons, hh]; omega
  have hle := length_le_encodeLabels labels
  unfold extractDomain
  have h13 : ¬ (h ++ (encodeLabels labels ++ (0 :: r))).length < 13 := by omega
  simp only [h13, if_false]
  have hfuel : (h ++ (encodeLabels labels ++ (0 :: r))).length
      = labels.length + ((12 + (encodeLabels labels).length - labels.length + r.length) + 1) := by
    omega
  have e := extractLoop_labels labels _ h (0 :: r) []
    ((12 + (encodeLabels labels).length - labels.length + r.length) + 1) rfl hl
  rw [hh, ← hfuel] at e
  rw [e, extractLoop]
  have hpos : (h ++ encodeLabels labels).length
      < (h ++ (encodeLabels labels ++ (0 :: r))).length := by
    simp only [List.length_append, List.length_cons]; omega
  have hget : (h ++ (encodeLabels labels ++ (0 :: r))).getD (h ++ encodeLabels labels).length 0
      = 0 := by
    rw [← List.append_assoc]
    exact getD_append_cons _ _ _ _
  have hz : (0 : UInt8).toNat = 0 := by decide
  simp only [hpos, if_true, hget, hz]
  rw [foldl_appendLabel_nil labels (fun l h' => (hl l h').1)]
  simp [Join_ne_nil labels hne (fun l h' => (hl l h').1)]

/-- C10 on the question name of `www.example.com`. -/
theorem extractDomain_encodeLabels_witness :
    extractDomain ([0x12, 0x34, 1, 0, 0, 1, 0, 0, 0, 0, 0, 0]
        ++ encodeLabels [str "www", str "example", str "com"] ++ [0] ++ [0, 1, 0, 1])
      = Join [str "www", str "example", str "com"] (str ".") :=
  extractDomain_encodeLabels [0x12, 0x34, 1, 0, 0, 1, 0, 0, 0, 0, 0, 0]
    [str "www", str "example", str "com"] [0, 1, 0, 1] (by decide) (by decide) (by decide)

/-! ## Stripping the trailing dot -/

theorem TrimSuffix_dot_of_not_suffix (s : GoString) (h : ¬ str "." <:+ s) :
    TrimSuffix s (str ".") = s := by
  unfold TrimSuffix
  have : HasSuffix s (str ".") = false := by
    rw [Bool.eq_false_iff]
    intro hs
    exact h ((HasSuffix_iff _ _).1 hs)
  simp [this]

theorem TrimSuffix_dot_append (s : GoString) : TrimSuffix (s ++ str ".") (str ".") = s := by
  unfold TrimSuffix
  have : HasSuffix (s ++ str ".") (str ".") = true := (HasSuffix_iff _ _).2 ⟨s, rfl⟩
  simp [this]

/-! ## Case tables for the examples -/

/-- The case table that leaves every rune above U+007F as it is keeps valid
runes valid. -/
theorem idTable_valid :
    ∀ r, ValidRune r → ValidRune (unicodeToLower (fun r => r) r) := by
  intro r hr
  unfold unicodeToLower
  unfold ValidRune at hr ⊢
  beta_reduce
  split_ifs <;> omega

theorem idTable_idem :
    ∀ r, ValidRune r →
      unicodeToLower (fun r => r) (unicodeToLower (fun r => r) r)
        = unicodeToLower (fun r => r) r := by
  intro r _
  unfold unicodeToLower
  beta_reduce
  split_ifs <;> omega

theorem idTable_nodot : ∀ r, unicodeToLower (fun r => r) r = 0x2E → r = 0x2E := by
  intro r h
  unfold unicodeToLower at h
  beta_reduce at h
  split_ifs at h <;> omega

/-- The model on names outside ASCII. With the table entry U+212A to `k`, the
rule `k.com` blocks the name `E2 84 AA .com`; with U+00C9 to U+00E9 the list
line `C3 89 .com` is stored as `C3 A9 .com`; the rule `FF .com` is stored as
`EF BF BD .com` and blocks the name `FE .com`. -/
theorem ToLower_non_ascii_examples :
    (NewBlocker (fun r => if r = 0x212A then 0x6B else r) [str "k.com"]).IsBlocked
        (fun r => if r = 0x212A then 0x6B else r) ([0xE2, 0x84, 0xAA] ++ str ".com") = true
    ∧ (NewBlocker (fun r => if r = 0xC9 then 0xE9 else r) [[0xC3, 0x89] ++ str ".com"]).exactDomains
        = [[0xC3, 0xA9] ++ str ".com"]
    ∧ (NewBlocker (fun r => r) [[0xFF] ++ str ".com"]).exactDomains
        = [[0xEF, 0xBF, 0xBD] ++ str ".com"]
    ∧ (NewBlocker (fun r => r) [[0xFF] ++ str ".com"]).IsBlocked (fun r => r)
        ([0xFE] ++ str ".com") = true := by
  refine ⟨by decide, by decide, by decide, by decide⟩

/-! ## Exact rules -/

theorem addWildcard_exactDomains (b : Blocker) (p : GoString) :
    (b.addWildcard p).exactDomains = b.exactDomains := by
  unfold Blocker.addWildcard
  split
  · rfl
  · split
    · rfl
    · split <;> rfl

theorem loadLine_exactDomains_mono (table : Nat → Nat) (b : Blocker) (text d : GoString)
    (h : d ∈ b.exactDomains) : d ∈ (b.loadLine table text).exactDomains := by
  unfold Blocker.loadLine
  simp only
  split
  · exact h
  · split
    · rw [addWildcard_exactDomains]; exact h
    · exact List.mem_insert_of_mem h

theorem foldl_loadLine_exactDomains_mono (table : Nat → Nat) (lines : List GoString) :
    ∀ (b : Blocker) (d : GoString), d ∈ b.exactDomains →
      d ∈ (lines.foldl (Blocker.loadLine table) b).exactDomains := by
  induction lines with
  | nil => intro b d h; exact h
  | cons t ts ih =>
    intro b d h
    exact ih _ d (loadLine_exactDomains_mono table b t d h)

theorem loadLine_exact (table : Nat → Nat) (b : Blocker) (line : GoString)
    (hne : TrimSpace line ≠ [])
    (hc : HasPrefix (TrimSpace line) (str "#") = false)
    (hs : Contains (ToLower table (TrimSpace line)) (str "*") = false) :
    ToLower table (TrimSpace line) ∈ (b.loadLine table line).exactDomains := by
  unfold Blocker.loadLine
  simp only [hne, hc, hs, Bool.false_eq_true, or_self, if_false]
  exact List.mem_insert_self _ _

theorem mem_exactDomains_of_isExactRule (table : Nat → Nat) (lines : List GoString)
    (d : GoString) (h : isExactRule table lines d) :
    d ∈ (NewBlocker table lines).exactDomains := by
  rcases h with ⟨line, hmem, hne, hc, hs, hd⟩
  subst hd
  unfold NewBlocker
  generalize Blocker.empty = b
  induction lines generalizing b with
  | nil => simp at hmem
  | cons t ts ih =>
    rw [List.foldl_cons]
    rcases List.mem_cons.1 hmem with h | h
    · subst h
      exact foldl_loadLine_exactDomains_mono table ts _ _ (loadLine_exact table b line hne hc hs)
    · exact ih h _

theorem IsBlocked_of_normalized_mem (table : Nat → Nat) (b : Blocker) (e : GoString)
    (h : TrimSuffix (ToLower table e) (str ".") ∈ b.exactDomains) :
    b.IsBlocked table e = true := by
  unfold Blocker.IsBlocked
  have : b.exactDomains.contains (TrimSuffix (ToLower table e) (str ".")) = true := by
    simpa using h
  simp only [this, if_true]

theorem ToLower_append_dot (table : Nat → Nat) (s : GoString) :
    ToLower table (s ++ str ".") = ToLower table s ++ str "." := by
  have hs : str "." = [46] := by decide
  have h46 : (46 : UInt8).toNat < 0x80 := by decide
  have hl : toLowerByte 46 = 46 := by decide
  rw [hs, ToLower_append_ascii table s 46 [] h46, hl, ToLower_nil]

theorem isRecasing_refl (d : GoString) : isRecasing d d := by
  unfold isRecasing
  induction d with
  | nil => exact List.Forall₂.nil
  | cons c d ih => exact List.Forall₂.cons (Or.inl rfl) ih

theorem isRecasing_upper (d : GoString) : isRecasing (d.map toUpperByte) d := by
  unfold isRecasing
  induction d with
  | nil => exact List.Forall₂.nil
  | cons c d ih => exact List.Forall₂.cons (Or.inr (Or.inl rfl)) ih

/-- C1, as it holds, for case tables that keep valid runes valid and lower-case
runes fixed. Every exact rule `d` is blocked with a trailing root dot appended,
and so is every re-casing of its ASCII letters; and when `d` does not itself
end in a dot, `d` is blocked as it stands, with its ASCII letters in upper
case, and in every other re-casing of its ASCII letters. -/
theorem exact_rule_blocked (table : Nat → Nat)
    (hvalid : ∀ r, ValidRune r → ValidRune (unicodeToLower table r))
    (hidem : ∀ r, ValidRune r →
      unicodeToLower table (unicodeToLower table r) = unicodeToLower table r)
    (lines : List GoString) (d : GoString) (hrule : isExactRule table lines d) :
    (NewBlocker table lines).IsBlocked table (d ++ str ".") = true
    ∧ (∀ e : GoString, isRecasing e d →
        (NewBlocker table lines).IsBlocked table (e ++ str ".") = true)
    ∧ (¬ str "." <:+ d →
        (NewBlocker table lines).IsBlocked table d = true
        ∧ (NewBlocker table lines).IsBlocked table (d.map toUpperByte) = true
        ∧ ∀ e : GoString, isRecasing e d →
            (NewBlocker table lines).IsBlocked table e = true) := by
  have hmem := mem_exactDomains_of_isExactRule table lines d hrule
  have hlow : ToLower table d = d := by
    rcases hrule with ⟨line, _, _, _, _, hd⟩
    rw [hd, ToLower_idem table hvalid hidem]
  have hlowe : ∀ e : GoString, isRecasing e d → ToLower table e = d := by
    intro e he
    rw [ToLower_recase table e d he, hlow]
  have key1 : ∀ e : GoString, isRecasing e d →
      (NewBlocker table lines).IsBlocked table (e ++ str ".") = true := by
    intro e he
    apply IsBlocked_of_normalized_mem
    rw [ToLower_append_dot, hlowe e he, TrimSuffix_dot_append]
    exact hmem
  refine ⟨key1 d (isRecasing_refl d), key1, ?_⟩
  intro hdot
  have key2 : ∀ e : GoString, isRecasing e d →
      (NewBlocker table lines).IsBlocked table e = true := by
    intro e he
    apply IsBlocked_of_normalized_mem
    rw [hlowe e he, TrimSuffix_dot_of_not_suffix d hdot]
    exact hmem
  exact ⟨key2 d (isRecasing_refl d), key2 _ (isRecasing_upper d), key2⟩

/-- C1 on the list `Example.COM`, `# ads`, `*.ads.net`: the re-casing
`EXAMPLE.com` of the rule `example.com` is blocked, with and without a
trailing dot. -/
theorem exact_rule_blocked_witness :
    isExactRule (fun r => r) [str " Example.COM", str "# ads", str "*.ads.net"]
      (str "example.com")
    ∧ (NewBlocker (fun r => r) [str " Example.COM", str "# ads", str "*.ads.net"]).IsBlocked
        (fun r => r) (str "EXAMPLE.com" ++ str ".") = true
    ∧ (NewBlocker (fun r => r) [str " Example.COM", str "# ads", str "*.ads.net"]).IsBlocked
        (fun r => r) (str "EXAMPLE.com") = true :=
  ⟨⟨str " Example.COM", by decide, by decide, by decide, by decide, by decide⟩,
   (exact_rule_blocked (fun r => r) idTable_valid idTable_idem
      [str " Example.COM", str "# ads", str "*.ads.net"] (str "example.com")
      ⟨str " Example.COM", by decide, by decide, by decide, by decide, by decide⟩).2.1
      (str "EXAMPLE.com") (by unfold isRecasing; decide),
   ((exact_rule_blocked (fun r => r) idTable_valid idTable_idem
      [str " Example.COM", str "# ads", str "*.ads.net"] (str "example.com")
      ⟨str " Example.COM", by decide, by decide, by decide, by decide, by decide⟩).2.2
      (by decide)).2.2 (str "EXAMPLE.com") (by unfold isRecasing; decide)⟩

/-- C1 fails in two ways. An exact rule that ends in a dot is not blocked: the
list line `example.com.` is stored with its dot, a query for `example.com.` is
compared without it. And a re-casing of a letter outside ASCII need not be
blocked: the list line `C5 BF .com` (U+017F, the long s, a lower-case letter)
is stored as it is, its upper case is `S.COM` (the table of `unicode.ToUpper`
sends U+017F to `S`), and `S.COM` is lower-cased to `s.com`. -/
theorem exact_rule_not_blocked :
    (isExactRule (fun r => r) [str "example.com."] (str "example.com.")
      ∧ (NewBlocker (fun r => r) [str "example.com."]).IsBlocked (fun r => r)
          (str "example.com.") = false)
    ∧ (isExactRule (fun r => r) [[0xC5, 0xBF] ++ str ".com"] ([0xC5, 0xBF] ++ str ".com")
      ∧ ¬ str "." <:+ ([0xC5, 0xBF] ++ str ".com")
      ∧ ToUpper (fun r => if r = 0x17F then 0x53 else r) ([0xC5, 0xBF] ++ str ".com")
          = str "S.COM"
      ∧ (NewBlocker (fun r => r) [[0xC5, 0xBF] ++ str ".com"]).IsBlocked (fun r => r)
          (str "S.COM") = false) :=
  ⟨⟨⟨str "example.com.", by decide, by decide, by decide, by decide, by decide⟩, by decide⟩,
   ⟨[0xC5, 0xBF] ++ str ".com", by decide, by decide, by decide, by decide, by decide⟩,
   by decide, by decide, by decide⟩

/-! ## Suffix rules -/

theorem trimLeftSpace_of_no_match (fuel : Nat) (s : GoString)
    (h : ∀ w ∈ spaceRunes, w.isPrefixOf s = false) : trimLeftSpace fuel s = s := by
  cases fuel with
  | zero => rfl
  | succ n =>
    have : spaceRunes.find? (fun w => w.isPrefixOf s) = none := by
      rw [List.find?_eq_none]
      intro w hw
      simp [h w hw]
    simp only [trimLeftSpace, this]

theorem trimRightSpace_of_no_match (fuel : Nat) (s : GoString)
    (h : ∀ w ∈ spaceRunes, w.isSuffixOf s = false) : trimRightSpace fuel s = s := by
  cases fuel with
  | zero => rfl
  | succ n =>
    have : spaceRunes.find? (fun w => w.isSuffixOf s) = none := by
      rw [List.find?_eq_none]
      intro w hw
      simp [h w hw]
    simp only [trimRightSpace, this]

/-- A list line `"*." ++ x` whose `x` does not end in white space is left as
it is by `TrimSpace`. -/
theorem TrimSpace_star_dot (x : GoString) (hx : ∀ w ∈ spaceRunes, ¬ w <:+ x) :
    TrimSpace (str "*." ++ x) = str "*." ++ x := by
  have hs : str "*." = [42, 46] := by decide
  rw [hs]
  unfold TrimSpace
  have hleft : ∀ w ∈ spaceRunes, w.isPrefixOf ([42, 46] ++ x) = false := by
    intro w hw
    have hhead : ∀ v ∈ spaceRunes, v ≠ [] ∧ v.head? ≠ some 42 := by decide
    have hv := hhead w hw
    cases w with
    | nil => exact absurd rfl hv.1
    | cons c r =>
      have hc : c ≠ 42 := fun e => hv.2 (by rw [e]; rfl)
      simp [List.isPrefixOf, hc]
  rw [trimLeftSpace_of_no_match _ _ hleft]
  apply trimRightSpace_of_no_match
  intro w hw
  rw [Bool.eq_false_iff]
  intro hsuf
  have hsuf := List.isSuffixOf_iff_suffix.1 hsuf
  have hhead : ∀ v ∈ spaceRunes, v.head? ≠ some 42 ∧ v.head? ≠ some 46 := by decide
  have hv := hhead w hw
  rw [show ([42, 46] ++ x : List UInt8) = 42 :: 46 :: x from rfl] at hsuf
  rcases List.suffix_cons_iff.1 hsuf with h | h
  · exact hv.1 (by rw [h]; rfl)
  · rcases List.suffix_cons_iff.1 h with h | h
    · exact hv.2 (by rw [h]; rfl)
    · exact hx w hw h

theorem ToLower_star_dot (table : Nat → Nat) (x : GoString) :
    ToLower table (str "*." ++ x) = str "*." ++ ToLower table x := by
  have hs : str "*." = [42, 46] := by decide
  have h42 : (42 : UInt8).toNat < 0x80 := by decide
  have h46 : (46 : UInt8).toNat < 0x80 := by decide
  have l42 : toLowerByte 42 = 42 := by decide
  have l46 : toLowerByte 46 = 46 := by decide
  rw [hs]
  show ToLower table (42 :: 46 :: x) = 42 :: 46 :: ToLower table x
  rw [ToLower_cons_ascii table 42 _ h42, ToLower_cons_ascii table 46 _ h46, l42, l46]

/-- The rule set built from the single list line `"*." ++ x`: one suffix rule,
the lower-cased `x`. -/
theorem NewBlocker_star_dot (table : Nat → Nat) (x : GoString)
    (hx : ∀ w ∈ spaceRunes, ¬ w <:+ x) :
    NewBlocker table [str "*." ++ x] = ⟨[], [ToLower table x], [], []⟩ := by
  have hs : str "*." = [42, 46] := by decide
  have hl := ToLower_star_dot table x
  have h1 : HasPrefix (str "*." ++ x) (str "#") = false := by
    have hh : str "#" = [35] := by decide
    rw [hs, hh]
    simp [HasPrefix, List.isPrefixOf]
  have h2 : Contains (str "*." ++ ToLower table x) (str "*") = true := by
    rw [hs]
    have hh : str "*" = [42] := by decide
    rw [hh]
    simp [Contains, List.isPrefixOf]
  have h3 : HasPrefix (str "*." ++ ToLower table x) (str "*.") = true :=
    (HasPrefix_iff _ _).2 ⟨ToLower table x, rfl⟩
  have h4 : TrimPrefix (str "*." ++ ToLower table x) (str "*.") = ToLower table x := by
    unfold TrimPrefix
    simp [h3]
  have h0 : str "*." ++ x ≠ [] := by rw [hs]; simp
  simp only [NewBlocker, List.foldl_cons, List.foldl_nil, Blocker.loadLine,
    TrimSpace_star_dot x hx, h0, h1, hl, h2, Bool.false_eq_true, or_self, if_false, if_true,
    Blocker.addWildcard, h3, h4, Blocker.empty, List.nil_append]

/-- What `IsBlocked` computes on a rule set with one suffix rule. -/
theorem IsBlocked_single_suffix (table : Nat → Nat) (s d : GoString) :
    (Blocker.mk [] [s] [] []).IsBlocked table d
      = (HasSuffix (TrimSuffix (ToLower table d) (str ".")) (str "." ++ s)
          || TrimSuffix (ToLower table d) (str ".") == s) := by
  simp only [Blocker.IsBlocked, List.contains_nil, Bool.false_eq_true, if_false, List.any_cons,
    List.any_nil, Bool.or_false]
  cases (HasSuffix (TrimSuffix (ToLower table d) (str ".")) (str "." ++ s)
    || TrimSuffix (ToLower table d) (str ".") == s) <;> rfl

/-- C2, as it holds, for case tables that send no rune but the dot to the dot.
For a non-empty `x` that ends neither in a dot nor in white space and a
non-empty label `a` without a dot, the rule set built from the single line
`"*." ++ x` blocks `x` and `a ++ "." ++ x`, and does not block `a ++ x` when
`a` is valid UTF-8. -/
theorem suffix_rule_blocks (table : Nat → Nat)
    (hnodot : ∀ r, unicodeToLower table r = 0x2E → r = 0x2E)
    (x a : GoString) (hx : x ≠ []) (ha : a ≠ [])
    (hadot : (46 : UInt8) ∉ a) (hxdot : ¬ str "." <:+ x)
    (hxspace : ∀ w ∈ spaceRunes, ¬ w <:+ x) :
    (NewBlocker table [str "*." ++ x]).IsBlocked table x = true
    ∧ (NewBlocker table [str "*." ++ x]).IsBlocked table (a ++ str "." ++ x) = true
    ∧ (ValidString a → (NewBlocker table [str "*." ++ x]).IsBlocked table (a ++ x) = false) := by
  have hs1 : str "." = [46] := by decide
  have h46 : (46 : UInt8).toNat < 0x80 := by decide
  have l46 : toLowerByte 46 = 46 := by decide
  have hlx : ¬ str "." <:+ ToLower table x := by
    intro h
    rw [hs1] at h
    apply hxdot
    rw [hs1]
    exact ToLower_dot_suffix table hnodot x h
  have hlx0 : ToLower table x ≠ [] := ToLower_ne_nil table x hx
  have hsuf : ∀ p : GoString, ¬ str "." <:+ p ++ ToLower table x := by
    intro p hp
    apply hlx
    rw [hs1] at hp ⊢
    rw [singleton_suffix_iff] at hp ⊢
    rw [List.getLast?_append_of_ne_nil _ hlx0] at hp
    exact hp
  rw [NewBlocker_star_dot table x hxspace]
  refine ⟨?_, ?_, ?_⟩
  · rw [IsBlocked_single_suffix, TrimSuffix_dot_of_not_suffix _ hlx]
    simp
  · have e : ToLower table (a ++ str "." ++ x)
        = ToLower table a ++ (str "." ++ ToLower table x) := by
      rw [hs1, List.append_assoc]
      show ToLower table (a ++ 46 :: x) = ToLower table a ++ 46 :: ToLower table x
      rw [ToLower_append_ascii table a 46 x h46, l46]
    rw [IsBlocked_single_suffix, e, TrimSuffix_dot_of_not_suffix _ (by
      rw [← List.append_assoc]; exact hsuf _)]
    have : HasSuffix (ToLower table a ++ (str "." ++ ToLower table x))
        (str "." ++ ToLower table x) = true :=
      (HasSuffix_iff _ _).2 ⟨ToLower table a, rfl⟩
    rw [this, Bool.true_or]
  · intro hav
    rw [IsBlocked_single_suffix, ToLower_append_valid table a x hav,
      TrimSuffix_dot_of_not_suffix _ (hsuf _)]
    have h1 : HasSuffix (ToLower table a ++ ToLower table x) (str "." ++ ToLower table x)
        = false := by
      rw [Bool.eq_false_iff]
      intro h
      rcases (HasSuffix_iff _ _).1 h with ⟨t, ht⟩
      rw [← List.append_assoc] at ht
      have h2 := List.append_cancel_right ht
      have h3 : (46 : UInt8) ∈ ToLower table a := by
        rw [← h2, hs1]; simp
      exact ToLower_dot_not_mem table hnodot a hav hadot h3
    have h2 : (ToLower table a ++ ToLower table x == ToLower table x) = false := by
      rw [beq_eq_false_iff_ne]
      intro h
      have := congrArg List.length h
      simp only [List.length_append] at this
      have hpos : 0 < (ToLower table a).length :=
        List.length_pos.2 (ToLower_ne_nil table a ha)
      omega
    rw [h1, h2]; rfl

/-- C2 on the list line `*.Ads.net` and the label `x1`. -/
theorem suffix_rule_blocks_witness :
    (NewBlocker (fun r => r) [str "*." ++ str "Ads.net"]).IsBlocked (fun r => r)
        (str "Ads.net") = true
    ∧ (NewBlocker (fun r => r) [str "*." ++ str "Ads.net"]).IsBlocked (fun r => r)
        (str "x1" ++ str "." ++ str "Ads.net") = true
    ∧ (NewBlocker (fun r => r) [str "*." ++ str "Ads.net"]).IsBlocked (fun r => r)
        (str "x1" ++ str "Ads.net") = false :=
  ⟨(suffix_rule_blocks (fun r => r) idTable_nodot (str "Ads.net") (str "x1") (by decide)
      (by decide) (by decide) (by decide) (by decide)).1,
   (suffix_rule_blocks (fun r => r) idTable_nodot (str "Ads.net") (str "x1") (by decide)
      (by decide) (by decide) (by decide) (by decide)).2.1,
   (suffix_rule_blocks (fun r => r) idTable_nodot (str "Ads.net") (str "x1") (by decide)
      (by decide) (by decide) (by decide) (by decide)).2.2 (by unfold ValidString; decide)⟩

/-- C2 fails in two ways. For a domain `x` that ends in a dot: with the single
list line `*.com.` the domain `com.` itself is not blocked. And for a label
`a` that is not valid UTF-8: with `x` the byte `BD` and `a` the bytes `EF BF`
(no dot, no white space), the rule is stored as `EF BF BD`, the encoding of
U+FFFD that replaces the invalid byte, and `a ++ x` is that very string, so it
is blocked. -/
theorem suffix_rule_not_as_claimed :
    (str "com." ≠ []
      ∧ (NewBlocker (fun r => r) [str "*." ++ str "com."]).IsBlocked (fun r => r)
          (str "com.") = false)
    ∧ (([0xBD] : GoString) ≠ [] ∧ ([0xEF, 0xBF] : GoString) ≠ []
      ∧ (46 : UInt8) ∉ ([0xEF, 0xBF] : GoString)
      ∧ ¬ str "." <:+ ([0xBD] : GoString)
      ∧ (∀ w ∈ spaceRunes, ¬ w <:+ ([0xBD] : GoString))
      ∧ (NewBlocker (fun r => r) [str "*." ++ [0xBD]]).wildcardSuffix = [[0xEF, 0xBF, 0xBD]]
      ∧ (NewBlocker (fun r => r) [str "*." ++ [0xBD]]).IsBlocked (fun r => r)
          ([0xEF, 0xBF] ++ [0xBD]) = true) :=
  ⟨⟨by decide, by decide⟩,
   by decide, by decide, by decide, by decide, by decide, by decide, by decide⟩

/-! ## Heap and association-list lemmas -/

theorem Heap.read_make_new (h : Heap) (n : Nat) :
    (h.make n).1.read (h.make n).2 = makeBytes n := by
  simp [Heap.make, Heap.read, List.getD_eq_getElem?_getD]

theorem Heap.read_make_old (h : Heap) (n : Nat) (a : Nat) (ha : a < h.arrays.length) :
    (h.make n).1.read a = h.read a := by
  simp [Heap.make, Heap.read, List.getD_eq_getElem?_getD, List.getElem?_append_left ha]

theorem Heap.read_write_same (h : Heap) (a : Nat) (bytes : List UInt8)
    (ha : a < h.arrays.length) : (h.write a bytes).read a = bytes := by
  simp [Heap.write, Heap.read, List.getD_eq_getElem?_getD, ha]

theorem Heap.read_write_other (h : Heap) (a b : Nat) (bytes : List UInt8) (hab : a ≠ b) :
    (h.write a bytes).read b = h.read b := by
  simp [Heap.write, Heap.read, List.getD_eq_getElem?_getD, List.getElem?_set_ne hab]

theorem Heap.length_write (h : Heap) (a : Nat) (bytes : List UInt8) :
    (h.write a bytes).arrays.length = h.arrays.length := by
  simp [Heap.write]

/-- Allocating a copy, the `make` and `copy` pair of `Get` and `Set`: the new
array holds the bytes of `src`, the arrays already there keep theirs. -/
theorem Heap.make_copy (h : Heap) (src : Nat) (hsrc : src < h.arrays.length) :
    ((h.make (h.read src).length).1.copy (h.make (h.read src).length).2 src).arrays.length
        = h.arrays.length + 1
    ∧ ((h.make (h.read src).length).1.copy (h.make (h.read src).length).2 src).read
        h.arrays.length = h.read src
    ∧ ∀ a : Nat, a < h.arrays.length →
        ((h.make (h.read src).length).1.copy (h.make (h.read src).length).2 src).read a
          = h.read a := by
  have hnew : (h.make (h.read src).length).2 = h.arrays.length := rfl
  have hlen : (h.make (h.read src).length).1.arrays.length = h.arrays.length + 1 := by
    simp [Heap.make]
  have hlt : h.arrays.length < (h.make (h.read src).length).1.arrays.length := by omega
  refine ⟨?_, ?_, ?_⟩
  · rw [Heap.copy, Heap.length_write, hlen]
  · rw [Heap.copy, hnew, Heap.read_write_same _ _ _ hlt]
    have := Heap.read_make_new h (h.read src).length
    rw [hnew] at this
    rw [this, Heap.read_make_old h _ src hsrc, copyBytes_makeBytes]
  · intro a ha
    have hne : h.arrays.length ≠ a := by omega
    rw [Heap.copy, hnew, Heap.read_write_other _ _ _ _ hne, Heap.read_make_old h _ a ha]

theorem lookup_mem (l : List (GoString × cacheEntry)) (k : GoString) (e : cacheEntry)
    (h : l.lookup k = some e) : (k, e) ∈ l := by
  induction l with
  | nil => simp at h
  | cons p l ih =>
    rcases p with ⟨k', e'⟩
    by_cases hk : k = k'
    · subst hk
      simp [List.lookup] at h
      subst h
      exact List.mem_cons_self _ _
    · have : (k == k') = false := by simpa using hk
      simp only [List.lookup, this] at h
      exact List.mem_cons_of_mem _ (ih h)

/-! ## The cache -/

theorem Cache.Set_lookup (c : Cache) (h : Heap) (now : Int) (k : GoString) (v : Nat) :
    (c.Set h now k v).1.entries.lookup k = some ⟨h.arrays.length, now⟩ := by
  simp [Cache.Set, List.lookup, Heap.make]

theorem Cache.Set_ttl (c : Cache) (h : Heap) (now : Int) (k : GoString) (v : Nat) :
    (c.Set h now k v).1.ttl = c.ttl := rfl

/-- A `Get` on a live entry returns a fresh slice with the bytes of the entry and
leaves the cache and the arrays already allocated as they are. -/
theorem Cache.Get_hit (c : Cache) (h : Heap) (now : Int) (k : GoString) (e : cacheEntry)
    (hk : c.entries.lookup k = some e) (hlive : ¬ (now - e.timestamp > c.ttl))
    (he : e.response < h.arrays.length) :
    (c.Get h now k).found = true
    ∧ (c.Get h now k).response = some h.arrays.length
    ∧ (c.Get h now k).cache = c
    ∧ (c.Get h now k).heap.arrays.length = h.arrays.length + 1
    ∧ (c.Get h now k).heap.read h.arrays.length = h.read e.response
    ∧ ∀ a : Nat, a < h.arrays.length → (c.Get h now k).heap.read a = h.read a := by
  have hmc := Heap.make_copy h e.response he
  have e : c.Get h now k = ⟨some h.arrays.length, true, c,
      (h.make (h.read e.response).length).1.copy (h.make (h.read e.response).length).2
        e.response⟩ := by
    simp only [Cache.Get, hk, hlive, if_false]
    rfl
  rw [e]
  exact ⟨rfl, rfl, rfl, hmc.1, hmc.2.1, hmc.2.2⟩

/-- C7. After `Set(k, v)`, a `Get(k)` at the same instant on a cache with a
non-negative time-to-live finds the entry and returns a slice holding the bytes
of `v`; whatever the caller then writes through the returned slice and through
its own buffer, a second `Get(k)` within the time-to-live returns the bytes of
`v` again. -/
theorem cache_roundtrip (c : Cache) (h : Heap) (k : GoString) (bytes : List UInt8) (t : Int)
    (httl : 0 ≤ c.ttl) :
    (setThenGet c h t k bytes).found = true
    ∧ ∃ r1 : Nat,
        (setThenGet c h t k bytes).response = some r1
        ∧ (setThenGet c h t k bytes).heap.read r1 = bytes
        ∧ ∀ (junk1 junk2 : List UInt8) (t2 : Int), t2 - t ≤ c.ttl →
            ((setThenGet c h t k bytes).cache.Get
              (((setThenGet c h t k bytes).heap.write r1 junk1).write (h.alloc bytes).2 junk2)
              t2 k).found = true
            ∧ ∃ r2 : Nat,
                ((setThenGet c h t k bytes).cache.Get
                  (((setThenGet c h t k bytes).heap.write r1 junk1).write (h.alloc bytes).2 junk2)
                  t2 k).response = some r2
                ∧ ((setThenGet c h t k bytes).cache.Get
                  (((setThenGet c h t k bytes).heap.write r1 junk1).write (h.alloc bytes).2 junk2)
                  t2 k).heap.read r2 = bytes := by
  unfold setThenGet
  -- the caller's buffer
  generalize hh0 : (h.alloc bytes).1 = h0
  have hv : (h.alloc bytes).2 = h.arrays.length := rfl
  rw [hv]
  have hlen0 : h0.arrays.length = h.arrays.length + 1 := by
    rw [← hh0]; simp [Heap.alloc]
  have hread0 : h0.read h.arrays.length = bytes := by
    rw [← hh0]; simp [Heap.alloc, Heap.read, List.getD_eq_getElem?_getD]
  -- the stored copy
  have hmc := Heap.make_copy h0 h.arrays.length (by omega)
  have hlook := Cache.Set_lookup c h0 t k h.arrays.length
  have hheap : (c.Set h0 t k h.arrays.length).2
      = (h0.make (h0.read h.arrays.length).length).1.copy
          (h0.make (h0.read h.arrays.length).length).2 h.arrays.length := rfl
  generalize hc1 : (c.Set h0 t k h.arrays.length).1 = c1 at *
  generalize hh1 : (c.Set h0 t k h.arrays.length).2 = h1 at *
  have httl1 : c1.ttl = c.ttl := by rw [← hc1]; rfl
  rw [← hheap] at hmc
  obtain ⟨hlen1, hread1, hold1⟩ := hmc
  -- the first Get
  have hlive : ¬ (t - (⟨h0.arrays.length, t⟩ : cacheEntry).timestamp > c1.ttl) := by
    simp only [httl1]; omega
  have hg := Cache.Get_hit c1 h1 t k ⟨h0.arrays.length, t⟩ hlook hlive (by simp only; omega)
  obtain ⟨hf, hr, hc, hl2, hrd, hold2⟩ := hg
  generalize hG : c1.Get h1 t k = g1 at *
  refine ⟨hf, h1.arrays.length, hr, ?_, ?_⟩
  · rw [hrd, hread1, hread0]
  · intro junk1 junk2 t2 ht2
    rw [hc]
    have hlive2 : ¬ (t2 - (⟨h0.arrays.length, t⟩ : cacheEntry).timestamp > c1.ttl) := by
      simp only [httl1]; omega
    have hlen3 : ((g1.heap.write h1.arrays.length junk1).write h.arrays.length junk2).arrays.length
        = h1.arrays.length + 1 := by
      rw [Heap.length_write, Heap.length_write, hl2]
    have hg2 := Cache.Get_hit c1
      ((g1.heap.write h1.arrays.length junk1).write h.arrays.length junk2) t2 k
      ⟨h0.arrays.length, t⟩ hlook hlive2 (by simp only; omega)
    obtain ⟨hf2, hr2, _, _, hrd2, _⟩ := hg2
    refine ⟨hf2, _, hr2, ?_⟩
    rw [hrd2]
    simp only
    rw [Heap.read_write_other _ _ _ _ (by omega), Heap.read_write_other _ _ _ _ (by omega),
      hold2 _ (by omega), hread1, hread0]

/-- C7 on an empty cache with a time-to-live of 10 and the bytes 1, 2, 3. -/
theorem cache_roundtrip_witness :
    (0 : Int) ≤ (NewCache 10).ttl
    ∧ (setThenGet (NewCache 10) ⟨[]⟩ 0 (str "k") [1, 2, 3]).found = true
    ∧ (setThenGet (NewCache 10) ⟨[]⟩ 0 (str "k") [1, 2, 3]).response = some 2
    ∧ (setThenGet (NewCache 10) ⟨[]⟩ 0 (str "k") [1, 2, 3]).heap.read 2 = [1, 2, 3] :=
  ⟨by decide,
   (cache_roundtrip (NewCache 10) ⟨[]⟩ (str "k") [1, 2, 3] 0 (by decide)).1,
   by decide, by decide⟩

theorem Cache.Set_stampedAt (c : Cache) (h : Heap) (t0 : Int) (k : GoString) (v : Nat) :
    stampedAt k t0 (c.Set h t0 k v).1 := by
  intro e he
  simp only [Cache.Set, List.mem_cons, List.mem_filter] at he
  rcases he with he | ⟨_, he⟩
  · rw [(Prod.mk.inj he).2]
  · simp at he

theorem CacheOp.run_stampedAt (k : GoString) (t0 : Int) (st : Cache × Heap) (op : CacheOp)
    (hop : op.setsKey k = false) (hst : stampedAt k t0 st.1) :
    stampedAt k t0 (op.run st).1 := by
  cases op with
  | get now key =>
    simp only [CacheOp.run]
    have : (st.1.Get st.2 now key).cache = st.1 := by
      unfold Cache.Get
      split
      · rfl
      · split <;> rfl
    rw [this]; exact hst
  | set now key response =>
    intro e he
    simp only [CacheOp.run, Cache.Set, List.mem_cons, List.mem_filter] at he
    rcases he with he | ⟨he, _⟩
    · have hk : k = key := (Prod.mk.inj he).1
      simp [CacheOp.setsKey, hk] at hop
    · exact hst e he
  | cleanup now =>
    intro e he
    simp only [CacheOp.run, Cache.cleanup, List.mem_filter] at he
    exact hst e he.1

theorem CacheOp.run_ttl (st : Cache × Heap) (op : CacheOp) : (op.run st).1.ttl = st.1.ttl := by
  cases op with
  | get now key =>
    simp only [CacheOp.run]
    unfold Cache.Get
    split
    · rfl
    · split <;> rfl
  | set now key response => rfl
  | cleanup now => rfl

theorem foldl_run_stampedAt (k : GoString) (t0 : Int) (ops : List CacheOp) :
    ∀ st : Cache × Heap, (∀ op ∈ ops, op.setsKey k = false) → stampedAt k t0 st.1 →
      stampedAt k t0 (ops.foldl CacheOp.run st).1
      ∧ (ops.foldl CacheOp.run st).1.ttl = st.1.ttl := by
  induction ops with
  | nil => intro st _ h; exact ⟨h, rfl⟩
  | cons op ops ih =>
    intro st hops hst
    have h1 := CacheOp.run_stampedAt k t0 st op (hops op (List.mem_cons_self _ _)) hst
    have h2 := ih (op.run st) (fun o ho => hops o (List.mem_cons_of_mem _ ho)) h1
    rw [List.foldl_cons]
    exact ⟨h2.1, by rw [h2.2, CacheOp.run_ttl]⟩

theorem Cache.Get_absent (c : Cache) (h : Heap) (now : Int) (k : GoString)
    (hk : c.entries.lookup k = none) : c.Get h now k = ⟨none, false, c, h⟩ := by
  simp only [Cache.Get, hk]

theorem Cache.Get_expired (c : Cache) (h : Heap) (now : Int) (k : GoString) (e : cacheEntry)
    (hk : c.entries.lookup k = some e) (hx : now - e.timestamp > c.ttl) :
    c.Get h now k = ⟨none, false, c, h⟩ := by
  simp only [Cache.Get, hk, hx, if_true]

/-- C8. After `Set(k, v)` at `t0` and any later steps on the cache that do not
store under `k` (reads, stores under other keys, sweeps), a `Get(k)` at an
instant `t` with `t - t0` above the time-to-live reports not-found, returns
`nil`, and leaves the entries and the heap as they were. -/
theorem cache_expiry (c : Cache) (h : Heap) (k : GoString) (v : Nat) (t0 t : Int)
    (ops : List CacheOp) (hops : ∀ op ∈ ops, op.setsKey k = false)
    (hexp : t - t0 > c.ttl) :
    ((ops.foldl CacheOp.run (c.Set h t0 k v)).1.Get
        (ops.foldl CacheOp.run (c.Set h t0 k v)).2 t k).found = false
    ∧ ((ops.foldl CacheOp.run (c.Set h t0 k v)).1.Get
        (ops.foldl CacheOp.run (c.Set h t0 k v)).2 t k).response = none
    ∧ ((ops.foldl CacheOp.run (c.Set h t0 k v)).1.Get
        (ops.foldl CacheOp.run (c.Set h t0 k v)).2 t k).cache.entries
          = (ops.foldl CacheOp.run (c.Set h t0 k v)).1.entries
    ∧ ((ops.foldl CacheOp.run (c.Set h t0 k v)).1.Get
        (ops.foldl CacheOp.run (c.Set h t0 k v)).2 t k).heap
          = (ops.foldl CacheOp.run (c.Set h t0 k v)).2 := by
  have hinv := foldl_run_stampedAt k t0 ops (c.Set h t0 k v) hops (Cache.Set_stampedAt c h t0 k v)
  generalize ops.foldl CacheOp.run (c.Set h t0 k v) = st at hinv
  obtain ⟨hst, httl⟩ := hinv
  rw [Cache.Set_ttl] at httl
  cases hl : st.1.entries.lookup k with
  | none =>
    rw [Cache.Get_absent _ _ _ _ hl]
    exact ⟨rfl, rfl, rfl, rfl⟩
  | some e =>
    have he := hst e (lookup_mem _ _ _ hl)
    have hx : t - e.timestamp > st.1.ttl := by rw [he, httl]; exact hexp
    rw [Cache.Get_expired _ _ _ _ e hl hx]
    exact ⟨rfl, rfl, rfl, rfl⟩

/-- C8 with a time-to-live of 10: an entry stored at 0 and read at 11, directly
and after a read, a store under another key and a sweep at 5. -/
theorem cache_expiry_witness :
    ((NewCache 10).Set ⟨[[1, 2]]⟩ 0 (str "k") 0).1.entries.lookup (str "k") = some ⟨1, 0⟩
    ∧ (((NewCache 10).Set ⟨[[1, 2]]⟩ 0 (str "k") 0).1.Get
        ((NewCache 10).Set ⟨[[1, 2]]⟩ 0 (str "k") 0).2 11 (str "k")).found = false
    ∧ (((NewCache 10).Set ⟨[[1, 2]]⟩ 0 (str "k") 0).1.Get
        ((NewCache 10).Set ⟨[[1, 2]]⟩ 0 (str "k") 0).2 11 (str "k")).cache.entries.lookup
          (str "k") = some ⟨1, 0⟩
    ∧ (([CacheOp.get 1 (str "k"), CacheOp.set 2 (str "j") 0, CacheOp.cleanup 5].foldl CacheOp.run
          ((NewCache 10).Set ⟨[[1, 2]]⟩ 0 (str "k") 0)).1.Get
        ([CacheOp.get 1 (str "k"), CacheOp.set 2 (str "j") 0, CacheOp.cleanup 5].foldl CacheOp.run
          ((NewCache 10).Set ⟨[[1, 2]]⟩ 0 (str "k") 0)).2 11 (str "k")).found = false :=
  ⟨by decide,
   (cache_expiry (NewCache 10) ⟨[[1, 2]]⟩ (str "k") 0 0 11 [] (by decide) (by decide)).1,
   by decide,
   (cache_expiry (NewCache 10) ⟨[[1, 2]]⟩ (str "k") 0 0 11
      [CacheOp.get 1 (str "k"), CacheOp.set 2 (str "j") 0, CacheOp.cleanup 5]
      (by decide) (by decide)).1⟩

/-! ## Forward on a query whose name cannot be extracted -/

theorem extractDomain_short (q : List UInt8) (h : q.length < 13) :
    extractDomain q = str "unknown" := by
  simp [extractDomain, h]

theorem extractDomain_overrun (q : List UInt8) (ho : labelOverrun q) :
    extractDomain q = str "invalid" := by
  rcases ho with ⟨h, labels, L, tail, hh, hl, hL, htail, hq⟩
  have hq' : q = h ++ (encodeLabels labels ++ (L :: tail)) := by
    rw [hq]; simp
  have hlen : q.length = 12 + (encodeLabels labels).length + 1 + tail.length := by
    rw [hq']; simp only [List.length_append, List.length_cons, hh]; omega
  have hle := length_le_encodeLabels labels
  have hfuel : q.length
      = labels.length + ((12 + (encodeLabels labels).length - labels.length + tail.length) + 1) := by
    omega
  have e := extractLoop_labels labels q h (L :: tail) []
    ((12 + (encodeLabels labels).length - labels.length + tail.length) + 1) hq' hl
  rw [hh, ← hfuel] at e
  have h13 : ¬ q.length < 13 := by omega
  unfold extractDomain
  simp only [h13, if_false]
  rw [e, extractLoop]
  have hplen : (h ++ encodeLabels labels).length = 12 + (encodeLabels labels).length := by
    simp only [List.length_append, hh]
  have hpos : (h ++ encodeLabels labels).length < q.length := by omega
  have hget : q.getD (h ++ encodeLabels labels).length 0 = L := by
    rw [hq', ← List.append_assoc]
    exact getD_append_cons _ _ _ _
  have hnz : ¬ L.toNat = 0 := by
    intro h0
    apply hL
    apply UInt8.ext
    rw [h0]; rfl
  have hover : (h ++ encodeLabels labels).length + 1 + L.toNat > q.length := by omega
  simp only [hpos, if_true, hget, hnz, if_false, hover]

theorem Cache.Set_heap (c : Cache) (h : Heap) (now : Int) (k : GoString) (v : Nat)
    (hv : v < h.arrays.length) :
    (c.Set h now k v).2.arrays.length = h.arrays.length + 1
    ∧ (c.Set h now k v).2.read h.arrays.length = h.read v
    ∧ ∀ a : Nat, a < h.arrays.length → (c.Set h now k v).2.read a = h.read a :=
  Heap.make_copy h v hv

theorem Forward_blocked (f : Forwarder) (c : Cache) (h : Heap) (q : List UInt8)
    (ip : GoString) (hb : f.blocker.IsBlocked f.caseTable (extractDomain q) = true) :
    f.Forward c h q ip = ⟨some (createBlockedResponse q), none, c, h,
      [LogEvent.Query ip (extractDomain q), LogEvent.Blocked ip (extractDomain q)], []⟩ := by
  simp [Forwarder.Forward, hb]

theorem Forward_hit (f : Forwarder) (c : Cache) (h : Heap) (q : List UInt8) (ip : GoString)
    (hb : f.blocker.IsBlocked f.caseTable (extractDomain q) = false) (e : cacheEntry)
    (hk : c.entries.lookup (getCacheKey f.Sum256 q) = some e)
    (hlive : ¬ (f.tGet - e.timestamp > c.ttl)) (he : e.response < h.arrays.length) :
    (f.Forward c h q ip).response = some (adjustTransactionID (h.read e.response) q)
    ∧ (f.Forward c h q ip).err = none
    ∧ (f.Forward c h q ip).cache = c
    ∧ (f.Forward c h q ip).log
        = [LogEvent.Query ip (extractDomain q), LogEvent.CacheHit (extractDomain q)]
    ∧ (f.Forward c h q ip).sent = [] := by
  obtain ⟨hf, hr, hc, _, hrd, _⟩ := Cache.Get_hit c h f.tGet _ e hk hlive he
  simp only [Forwarder.Forward, hb, Bool.false_eq_true, if_false, hf, hr, hc, if_true,
    Heap.readSlice, hrd]
  simp

theorem Forward_miss (f : Forwarder) (c : Cache) (h : Heap) (q : List UInt8) (ip : GoString)
    (hb : f.blocker.IsBlocked f.caseTable (extractDomain q) = false)
    (hmiss : (c.Get h f.tGet (getCacheKey f.Sum256 q)).found = false)
    (reply : List UInt8) (hx : f.exchange q = .ok reply) :
    (f.Forward c h q ip).response = some (reply.take 4096)
    ∧ (f.Forward c h q ip).err = none
    ∧ (∃ a : Nat, (f.Forward c h q ip).cache.entries.lookup (getCacheKey f.Sum256 q)
          = some ⟨a, f.tSet⟩
        ∧ (f.Forward c h q ip).heap.read a = reply.take 4096)
    ∧ (f.Forward c h q ip).log = [LogEvent.Query ip (extractDomain q)]
    ∧ (f.Forward c h q ip).sent = [q] := by
  have hg : c.Get h f.tGet (getCacheKey f.Sum256 q) = ⟨none, false, c, h⟩ := by
    unfold Cache.Get at hmiss ⊢
    split
    · rfl
    · split
      · rfl
      · rename_i e hk hlive
        simp [hk, hlive] at hmiss
  have hbuf : List.take (min 4096 reply.length) (copyBytes (makeBytes 4096) reply)
      = reply.take 4096 := by
    simp only [copyBytes, makeBytes, List.length_replicate]
    by_cases hr : reply.length ≤ 4096
    · rw [Nat.min_eq_right hr, List.take_of_length_le (Nat.le_refl _),
        List.take_of_length_le hr]
      rw [List.take_append_of_le_length (by simp)]
      simp
    · have hr' : 4096 ≤ reply.length := by omega
      rw [Nat.min_eq_left hr', List.take_append_of_le_length (by simp; omega)]
      simp
  have hal : ∀ bytes : List UInt8, (h.alloc bytes).1.arrays.length = h.arrays.length + 1 := by
    intro bytes; simp [Heap.alloc]
  have hrd : ∀ bytes : List UInt8, (h.alloc bytes).1.read h.arrays.length = bytes := by
    intro bytes; simp [Heap.alloc, Heap.read, List.getD_eq_getElem?_getD]
  have hv2 : ∀ bytes : List UInt8, (h.alloc bytes).2 = h.arrays.length := fun _ => rfl
  have hlt : h.arrays.length < (h.alloc (reply.take 4096)).1.arrays.length := by
    rw [hal]; omega
  have hs := Cache.Set_heap c (h.alloc (reply.take 4096)).1 f.tSet (getCacheKey f.Sum256 q)
    h.arrays.length hlt
  have hlk := Cache.Set_lookup c (h.alloc (reply.take 4096)).1 f.tSet (getCacheKey f.Sum256 q)
    h.arrays.length
  rw [hal, hrd] at hs
  rw [hal] at hlk
  simp only [Forwarder.Forward, hb, Bool.false_eq_true, if_false, hg, hx, hbuf, hv2]
  refine ⟨?_, trivial, ⟨h.arrays.length + 1, hlk, hs.2.1⟩, trivial, trivial⟩
  rw [hs.2.2 h.arrays.length (by omega), hrd]

theorem Forward_log_not_blocked (f : Forwarder) (c : Cache) (h : Heap) (q : List UInt8)
    (ip : GoString) (hb : f.blocker.IsBlocked f.caseTable (extractDomain q) = false) (d : GoString) :
    LogEvent.Blocked ip d ∉ (f.Forward c h q ip).log := by
  simp only [Forwarder.Forward, hb, Bool.false_eq_true, if_false]
  split
  · simp
  · split <;> simp

/-- C9, as it holds: a query whose name cannot be extracted is not aborted but
run through the usual pipeline under the literal `unknown` (buffer shorter than
13 bytes) or `invalid` (label overrun). It gets the synthesised blocked
response exactly when the rule set blocks that literal, so never when the rule
set blocks neither literal; and when it is not blocked and has at least 12
bytes, it is answered from a live cache entry under its key, or else sent
upstream and the reply is stored under its key. -/
theorem Forward_extraction_failure (f : Forwarder) (c : Cache) (h : Heap) (q : List UInt8)
    (ip : GoString) (hfail : q.length < 13 ∨ labelOverrun q) :
    (q.length < 13 → extractDomain q = str "unknown")
    ∧ (labelOverrun q → extractDomain q = str "invalid")
    ∧ (LogEvent.Blocked ip (extractDomain q) ∈ (f.Forward c h q ip).log
        ↔ f.blocker.IsBlocked f.caseTable (extractDomain q) = true)
    ∧ (f.blocker.IsBlocked f.caseTable (extractDomain q) = true →
        (f.Forward c h q ip).response = some (createBlockedResponse q)
        ∧ (f.Forward c h q ip).cache = c ∧ (f.Forward c h q ip).sent = [])
    ∧ (f.blocker.IsBlocked f.caseTable (str "unknown") = false →
        f.blocker.IsBlocked f.caseTable (str "invalid") = false →
        ∀ d : GoString, LogEvent.Blocked ip d ∉ (f.Forward c h q ip).log)
    ∧ (12 ≤ q.length → f.blocker.IsBlocked f.caseTable (extractDomain q) = false →
        ∀ e : cacheEntry, c.entries.lookup (getCacheKey f.Sum256 q) = some e →
          ¬ (f.tGet - e.timestamp > c.ttl) → e.response < h.arrays.length →
          (f.Forward c h q ip).response = some (adjustTransactionID (h.read e.response) q)
          ∧ (f.Forward c h q ip).log
              = [LogEvent.Query ip (extractDomain q), LogEvent.CacheHit (extractDomain q)]
          ∧ (f.Forward c h q ip).sent = [])
    ∧ (12 ≤ q.length → f.blocker.IsBlocked f.caseTable (extractDomain q) = false →
        (c.Get h f.tGet (getCacheKey f.Sum256 q)).found = false →
        ∀ reply : List UInt8, f.exchange q = .ok reply →
          (f.Forward c h q ip).response = some (reply.take 4096)
          ∧ (∃ a : Nat, (f.Forward c h q ip).cache.entries.lookup (getCacheKey f.Sum256 q)
                = some ⟨a, f.tSet⟩
              ∧ (f.Forward c h q ip).heap.read a = reply.take 4096)
          ∧ (f.Forward c h q ip).sent = [q]) := by
  have hlit : extractDomain q = str "unknown" ∨ extractDomain q = str "invalid" := by
    rcases hfail with hs | ho
    · exact Or.inl (extractDomain_short q hs)
    · exact Or.inr (extractDomain_overrun q ho)
  refine ⟨extractDomain_short q, extractDomain_overrun q, ?_, ?_, ?_, ?_, ?_⟩
  · constructor
    · intro hmem
      by_contra hb
      have hb' : f.blocker.IsBlocked f.caseTable (extractDomain q) = false := by
        simpa using hb
      exact Forward_log_not_blocked f c h q ip hb' _ hmem
    · intro hb
      rw [Forward_blocked f c h q ip hb]
      simp
  · intro hb
    rw [Forward_blocked f c h q ip hb]
    exact ⟨rfl, rfl, rfl⟩
  · intro hu hi d
    apply Forward_log_not_blocked
    rcases hlit with hl | hl
    · rw [hl]; exact hu
    · rw [hl]; exact hi
  · intro _ hb e hk hlive he
    obtain ⟨h1, _, _, h4, h5⟩ := Forward_hit f c h q ip hb e hk hlive he
    exact ⟨h1, h4, h5⟩
  · intro _ hb hmiss reply hx
    obtain ⟨h1, _, h3, _, h5⟩ := Forward_miss f c h q ip hb hmiss reply hx
    exact ⟨h1, h3, h5⟩

/-- C9 on a 14-byte query whose only label declares 5 bytes and has 1: with no
rules loaded it is classified `invalid`, not blocked, and sent upstream. -/
theorem Forward_extraction_failure_witness :
    labelOverrun [0x12, 0x34, 1, 0, 0, 1, 0, 0, 0, 0, 0, 0, 5, 1]
    ∧ extractDomain [0x12, 0x34, 1, 0, 0, 1, 0, 0, 0, 0, 0, 0, 5, 1] = str "invalid"
    ∧ ∀ d : GoString, LogEvent.Blocked (str "10.0.0.1") d ∉
        ((echoForwarder [] 5 6).Forward (NewCache 10) ⟨[]⟩
          [0x12, 0x34, 1, 0, 0, 1, 0, 0, 0, 0, 0, 0, 5, 1] (str "10.0.0.1")).log :=
  ⟨⟨[0x12, 0x34, 1, 0, 0, 1, 0, 0, 0, 0, 0, 0], [], 5, [1],
      by decide, by decide, by decide, by decide, by decide⟩,
   (Forward_extraction_failure (echoForwarder [] 5 6) (NewCache 10) ⟨[]⟩
      [0x12, 0x34, 1, 0, 0, 1, 0, 0, 0, 0, 0, 0, 5, 1] (str "10.0.0.1")
      (Or.inr ⟨[0x12, 0x34, 1, 0, 0, 1, 0, 0, 0, 0, 0, 0], [], 5, [1],
        by decide, by decide, by decide, by decide, by decide⟩)).2.1
      ⟨[0x12, 0x34, 1, 0, 0, 1, 0, 0, 0, 0, 0, 0], [], 5, [1],
        by decide, by decide, by decide, by decide, by decide⟩,
   (Forward_extraction_failure (echoForwarder [] 5 6) (NewCache 10) ⟨[]⟩
      [0x12, 0x34, 1, 0, 0, 1, 0, 0, 0, 0, 0, 0, 5, 1] (str "10.0.0.1")
      (Or.inr ⟨[0x12, 0x34, 1, 0, 0, 1, 0, 0, 0, 0, 0, 0], [], 5, [1],
        by decide, by decide, by decide, by decide, by decide⟩)).2.2.2.2.1
      (by decide) (by decide)⟩

/-- C9 fails on the 14-byte query whose only label declares 5 bytes and has 1.
With the list line `*.invalid` it gets the synthesised blocked response. With
no rules its upstream reply is stored in the cache, and the same query under
another transaction ID is then answered from the cache, nothing being sent
upstream. -/
theorem Forward_extraction_failure_blocked_and_cached :
    labelOverrun [0x12, 0x34, 1, 0, 0, 1, 0, 0, 0, 0, 0, 0, 5, 1]
    ∧ ((echoForwarder [str "*.invalid"] 5 6).Forward (NewCache 10) ⟨[]⟩
          [0x12, 0x34, 1, 0, 0, 1, 0, 0, 0, 0, 0, 0, 5, 1] (str "10.0.0.1")).response
        = some (createBlockedResponse [0x12, 0x34, 1, 0, 0, 1, 0, 0, 0, 0, 0, 0, 5, 1])
    ∧ LogEvent.Blocked (str "10.0.0.1") (str "invalid") ∈
        ((echoForwarder [str "*.invalid"] 5 6).Forward (NewCache 10) ⟨[]⟩
          [0x12, 0x34, 1, 0, 0, 1, 0, 0, 0, 0, 0, 0, 5, 1] (str "10.0.0.1")).log
    ∧ (((echoForwarder [] 5 6).Forward (NewCache 10) ⟨[]⟩
          [0x12, 0x34, 1, 0, 0, 1, 0, 0, 0, 0, 0, 0, 5, 1] (str "10.0.0.1")).cache.entries.map
          (fun e => e.2)) = [⟨1, 6⟩]
    ∧ ((echoForwarder [] 7 8).Forward
          ((echoForwarder [] 5 6).Forward (NewCache 10) ⟨[]⟩
            [0x12, 0x34, 1, 0, 0, 1, 0, 0, 0, 0, 0, 0, 5, 1] (str "10.0.0.1")).cache
          ((echoForwarder [] 5 6).Forward (NewCache 10) ⟨[]⟩
            [0x12, 0x34, 1, 0, 0, 1, 0, 0, 0, 0, 0, 0, 5, 1] (str "10.0.0.1")).heap
          [0xAB, 0xCD, 1, 0, 0, 1, 0, 0, 0, 0, 0, 0, 5, 1] (str "10.0.0.1")).log
        = [LogEvent.Query (str "10.0.0.1") (str "invalid"), LogEvent.CacheHit (str "invalid")]
    ∧ ((echoForwarder [] 7 8).Forward
          ((echoForwarder [] 5 6).Forward (NewCache 10) ⟨[]⟩
            [0x12, 0x34, 1, 0, 0, 1, 0, 0, 0, 0, 0, 0, 5, 1] (str "10.0.0.1")).cache
          ((echoForwarder [] 5 6).Forward (NewCache 10) ⟨[]⟩
            [0x12, 0x34, 1, 0, 0, 1, 0, 0, 0, 0, 0, 0, 5, 1] (str "10.0.0.1")).heap
          [0xAB, 0xCD, 1, 0, 0, 1, 0, 0, 0, 0, 0, 0, 5, 1] (str "10.0.0.1")).sent = [] :=
  ⟨⟨[0x12, 0x34, 1, 0, 0, 1, 0, 0, 0, 0, 0, 0], [], 5, [1],
      by decide, by decide, by decide, by decide, by decide⟩,
   by decide, by decide, by decide, by decide, by decide⟩

/-! ## The fuel of the loops is never used up -/

/-- With more fuel than bytes left behind `pos`, one more unit of fuel does not
change what the loop of `extractDomain` returns: the fuel `len(query)` that
`extractDomain` passes at `pos = 12` is never used up. -/
theorem extractLoop_fuel_succ (query : List UInt8) :
    ∀ (fuel pos : Nat) (acc : GoString), query.length - pos < fuel →
      extractLoop query fuel pos acc = extractLoop query (fuel + 1) pos acc := by
  intro fuel
  induction fuel with
  | zero => intro pos acc h; omega
  | succ n ih =>
    intro pos acc h
    rw [extractLoop, extractLoop]
    by_cases hpos : pos < query.length
    · simp only [hpos, if_true]
      by_cases hz : (query.getD pos 0).toNat = 0
      · simp only [hz, if_true]
      · simp only [hz, if_false]
        by_cases hfit : pos + 1 + (query.getD pos 0).toNat > query.length
        · simp only [hfit, if_true]
        · simp only [hfit, if_false]
          exact ih _ _ (by omega)
    · simp only [hpos, if_false]

theorem spaceRunes_length_pos : ∀ w ∈ spaceRunes, 1 ≤ w.length := by decide

/-- With at least as much fuel as bytes, one more unit of fuel does not change
what `trimLeftSpace` returns. -/
theorem trimLeftSpace_fuel_succ :
    ∀ (fuel : Nat) (s : GoString), s.length ≤ fuel →
      trimLeftSpace fuel s = trimLeftSpace (fuel + 1) s := by
  intro fuel
  induction fuel with
  | zero =>
    intro s h
    have hs : s = [] := List.eq_nil_of_length_eq_zero (by omega)
    subst hs
    have hnone : spaceRunes.find? (fun w => w.isPrefixOf ([] : GoString)) = none := by decide
    simp only [trimLeftSpace, hnone]
  | succ n ih =>
    intro s h
    rw [trimLeftSpace]
    conv => rhs; rw [trimLeftSpace]
    cases hf : spaceRunes.find? (fun w => w.isPrefixOf s) with
    | none => rfl
    | some w =>
      simp only
      have hw := spaceRunes_length_pos w (List.mem_of_find?_eq_some hf)
      have hp : w.isPrefixOf s = true :=
        List.find?_some (p := fun v : GoString => v.isPrefixOf s) hf
      have hle : w.length ≤ s.length := (List.isPrefixOf_iff_prefix.1 hp).length_le
      exact ih _ (by rw [List.length_drop]; omega)

/-- With at least as much fuel as bytes, one more unit of fuel does not change
what `trimRightSpace` returns. -/
theorem trimRightSpace_fuel_succ :
    ∀ (fuel : Nat) (s : GoString), s.length ≤ fuel →
      trimRightSpace fuel s = trimRightSpace (fuel + 1) s := by
  intro fuel
  induction fuel with
  | zero =>
    intro s h
    have hs : s = [] := List.eq_nil_of_length_eq_zero (by omega)
    subst hs
    have hnone : spaceRunes.find? (fun w => w.isSuffixOf ([] : GoString)) = none := by decide
    simp only [trimRightSpace, hnone]
  | succ n ih =>
    intro s h
    rw [trimRightSpace]
    conv => rhs; rw [trimRightSpace]
    cases hf : spaceRunes.find? (fun w => w.isSuffixOf s) with
    | none => rfl
    | some w =>
      simp only
      have hw := spaceRunes_length_pos w (List.mem_of_find?_eq_some hf)
      have hp : w.isSuffixOf s = true :=
        List.find?_some (p := fun v : GoString => v.isSuffixOf s) hf
      have hle : w.length ≤ s.length := (List.isSuffixOf_iff_suffix.1 hp).length_le
      exact ih _ (by rw [List.length_take]; omega)

end XDNS
